import Mathlib

/-!
Shallow embedding of the `tantivy-log` repository (KodrAus/tantivy-log).

The embedding follows the Rust sources file by file:

* namespace `Schema`   — `src/schema.rs`: the `serde` field-flattening
  serializer (`FieldCollector`), fingerprinting (`Doc::build`) and the
  tantivy schema / document materialisation (`Doc::indexable`).
* namespace `StoreM`   — `src/store.rs`: the fingerprint → index registry.
* namespace `IndexM`   — `src/index.rs`: the per-`Indexer` writer cache.
* namespace `Search`   — `src/searcher.rs`: the bounded multi-index top-K
  collector built on Rust's `std::collections::BinaryHeap`.

Machine integers are modelled as `Int` / `Nat` (no arithmetic in the
sources can overflow the 64-bit ranges the claims exercise), `f64` payloads
are carried as their raw bit pattern (`Nat`), and `f32` scores as `Int`
(an order-embedding of the non-NaN floats: every claim is about order
comparisons only).  Fallible paths return `SerOutcome`: `err` models a
`Result::Err` returned to the caller, `fatal` models a `panic!` /
`unimplemented!()` / failed `assert!` / `expect`.
-/

/-- Outcome of a fallible operation: `ok`, a returned error (`Result::Err`),
or a process-aborting panic (`fatal`). -/
inductive SerOutcome (α : Type) where
  | ok (a : α)
  | err (msg : String)
  | fatal (msg : String)
deriving Repr, DecidableEq

namespace SerOutcome

/-- Map over the success value, propagating `err` and `fatal`. -/
def okMap {α β : Type} (f : α → β) : SerOutcome α → SerOutcome β
  | .ok a => .ok (f a)
  | .err m => .err m
  | .fatal m => .fatal m

end SerOutcome

namespace Schema

/-- Mirrors `schema.rs` `enum Value`: the closed set of indexable scalar
kinds.  `float` carries the raw `f64` bit pattern. -/
inductive Value where
  | signed (i : Int)
  | unsigned (n : Nat)
  | float (bits : Nat)
  | bytes (bs : List Nat)
  | str (s : String)
  | bool (b : Bool)
  | none
deriving Repr, DecidableEq

/-- Mirrors `Value::ty`: the type tag hashed into the fingerprint. -/
def Value.ty : Value → String
  | .signed _ => "signed"
  | .unsigned _ => "unsigned"
  | .float _ => "float"
  | .bytes _ => "bytes"
  | .str _ => "string"
  | .bool _ => "bool"
  | .none => "none"

/-- A serializable Rust value as seen by a `serde::Serializer`: one
constructor per serializer entry point that `FieldCollector` implements.
Integer widths below 64 bits widen before reaching the collector
(`serialize_i8/.../i32` forward to `serialize_i64`, `u8/../u32` to
`serialize_u64`, `f32` to `f64`), so a single constructor per family
suffices. -/
inductive SValue where
  | sBool (b : Bool)
  | sI64 (i : Int)
  | sU64 (n : Nat)
  | sF64 (bits : Nat)
  | sChar (c : Char)
  | sStr (s : String)
  | sBytes (bs : List Nat)
  | sNone
  | sSome (v : SValue)
  | sUnit
  | sUnitStruct (name : String)
  | sUnitVariant (name : String) (idx : Nat) (variantName : String)
  | sNewtypeStruct (name : String) (v : SValue)
  | sNewtypeVariant (name : String) (idx : Nat) (variantName : String) (v : SValue)
  | sSeq (elems : List SValue)
  | sTuple (elems : List SValue)
  | sTupleStruct (name : String) (elems : List SValue)
  | sTupleVariant (name : String) (idx : Nat) (variantName : String) (elems : List SValue)
  | sMap (entries : List (SValue × SValue))
  | sStruct (name : String) (fields : List (String × SValue))
  | sStructVariant (name : String) (idx : Nat) (variantName : String) (fields : List (String × SValue))
deriving Repr

/-- Stand-in for Rust's `f64::to_string` on a bit pattern; the rendered
text of a float key never feeds any claim, only whether rendering is
accepted at all. -/
def f64Display (bits : Nat) : String := toString bits

/-- Mirrors `KeyCollector`: renders a scalar map key to a `String`,
returning `Err("unsupported key type")` for every non-scalar shape. -/
def serializeKey : SValue → SerOutcome String
  | .sBool b => .ok (if b then "true" else "false")
  | .sI64 i => .ok (toString i)
  | .sU64 n => .ok (toString n)
  | .sF64 bits => .ok (f64Display bits)
  | .sChar c => .ok (toString c)
  | .sStr s => .ok s
  | .sBytes _ => .err "unsupported key type"
  | .sNone => .err "unsupported key type"
  | .sSome v => serializeKey v
  | .sUnit => .err "unsupported key type"
  | .sUnitStruct _ => .err "unsupported key type"
  | .sUnitVariant _ _ _ => .err "unsupported key type"
  | .sNewtypeStruct _ v => serializeKey v
  | .sNewtypeVariant _ _ _ _ => .err "unsupported key type"
  | .sSeq _ => .err "unsupported key type"
  | .sTuple _ => .err "unsupported key type"
  | .sTupleStruct _ _ => .err "unsupported key type"
  | .sTupleVariant _ _ _ _ => .err "unsupported key type"
  | .sMap _ => .err "unsupported key type"
  | .sStruct _ _ => .err "unsupported key type"
  | .sStructVariant _ _ _ _ => .err "unsupported key type"

/-- Mirrors `struct FieldComponent`. -/
structure FieldComponent where
  anonymous : Nat
  allowChildFields : Bool
  value : String
deriving Repr, DecidableEq

/-- Mirrors `struct FieldPath`; the `VecDeque` is a list whose last
element is the deque's back. -/
structure FieldPath where
  anonymous : Nat
  components : List FieldComponent
deriving Repr, DecidableEq

/-- Mirrors `FieldPath::push` (push_back onto the deque). -/
def FieldPath.push (p : FieldPath) (allowChildFields : Bool) (field : String) : FieldPath :=
  { p with components := p.components ++ [⟨0, allowChildFields, field⟩] }

/-- Mirrors `FieldPath::pop` (pop_back; no-op on an empty deque). -/
def FieldPath.pop (p : FieldPath) : FieldPath :=
  { p with components := p.components.dropLast }

/-- The dot-joining fold of `FieldPath::internal_current_to`. -/
def joinDot (parts : List String) : String :=
  parts.foldl (fun s q => if s.length > 0 then s ++ "." ++ q else s ++ q) ""

/-- Mirrors `FieldPath::internal_current_to`. -/
def FieldPath.internalCurrentTo (p : FieldPath) (field : Option String) : String :=
  joinDot (p.components.map (fun c => c.value) ++ field.toList)

/-- Mirrors `FieldPath::current`. -/
def FieldPath.current (p : FieldPath) : String :=
  p.internalCurrentTo Option.none

/-- Mirrors `FieldPath::current_to`. -/
def FieldPath.currentTo (p : FieldPath) (field : String) : String :=
  p.internalCurrentTo (Option.some field)

/-- Mirrors `FieldPath::anonymous`: synthesize the next ordinal segment
`_0, _1, …` scoped to the back component (or the root counter), asserting
that the back component allows child fields. -/
def FieldPath.anonymousNext (p : FieldPath) : SerOutcome (String × FieldPath) :=
  match p.components.getLast? with
  | Option.some comp =>
      if comp.allowChildFields then
        .ok ("_" ++ toString comp.anonymous,
          { p with components := p.components.dropLast ++ [{ comp with anonymous := comp.anonymous + 1 }] })
      else
        .fatal "assertion failed: component.allow_child_fields"
  | Option.none =>
      .ok ("_" ++ toString p.anonymous, { p with anonymous := p.anonymous + 1 })

/-- Mirrors `struct FieldCollector`. -/
structure FieldCollector where
  path : FieldPath
  currentField : Option String
  fields : List (String × Value)
deriving Repr

/-- Mirrors `FieldCollector::new`. -/
def FieldCollector.new : FieldCollector :=
  ⟨⟨0, []⟩, Option.none, []⟩

/-- Mirrors `FieldCollector::set_current_field` (asserts no pending field). -/
def FieldCollector.setCurrentField (c : FieldCollector) (field : String) : SerOutcome FieldCollector :=
  match c.currentField with
  | Option.some _ => .fatal "assertion failed: current_field.is_none()"
  | Option.none => .ok { c with currentField := Option.some field }

/-- Mirrors `FieldCollector::push_path`. -/
def FieldCollector.pushPath (c : FieldCollector) : FieldCollector :=
  match c.currentField with
  | Option.some f => { c with path := c.path.push true f, currentField := Option.none }
  | Option.none => c

/-- Mirrors `FieldCollector::push_path_no_child_fields`. -/
def FieldCollector.pushPathNoChildFields (c : FieldCollector) : FieldCollector :=
  match c.currentField with
  | Option.some f => { c with path := c.path.push false f, currentField := Option.none }
  | Option.none => c

/-- Mirrors `FieldCollector::pop_path`. -/
def FieldCollector.popPath (c : FieldCollector) : FieldCollector :=
  { c with path := c.path.pop }

/-- The `_` arm of `FieldCollector::move_next_field`: take the pending
field name or synthesize an anonymous one, then emit at the extended
path. -/
def FieldCollector.moveNextFieldDefault (c : FieldCollector) (v : Value) : SerOutcome FieldCollector :=
  match c.currentField with
  | Option.some f =>
      .ok { c with currentField := Option.none,
                   fields := c.fields ++ [(c.path.currentTo f, v)] }
  | Option.none =>
      match c.path.anonymousNext with
      | .ok (f, path') =>
          .ok { c with path := path', fields := c.fields ++ [(path'.currentTo f, v)] }
      | .err m => .err m
      | .fatal m => .fatal m

/-- Mirrors `FieldCollector::move_next_field`: inside a no-child-fields
component (a sequence) the value repeats the unextended current path;
otherwise the default arm applies. -/
def FieldCollector.moveNextField (c : FieldCollector) (v : Value) : SerOutcome FieldCollector :=
  match c.path.components.getLast? with
  | Option.some comp =>
      if comp.allowChildFields then
        c.moveNextFieldDefault v
      else
        match c.currentField with
        | Option.some _ => .fatal "assertion failed: current_field.is_none()"
        | Option.none => .ok { c with fields := c.fields ++ [(c.path.current, v)] }
  | Option.none => c.moveNextFieldDefault v

mutual

/-- The `Serializer` impl for `&mut FieldCollector`, one arm per serde
entry point.  Aggregates push a path component on entry and pop it in
`end` (reached only on the success path, as in the derived serde code);
the three data-carrying-variant arms are `unimplemented!()` panics. -/
def serializeValue (c : FieldCollector) (v : SValue) : SerOutcome FieldCollector :=
  match v with
  | .sBool b => c.moveNextField (Value.bool b)
  | .sI64 i => c.moveNextField (Value.signed i)
  | .sU64 n => c.moveNextField (Value.unsigned n)
  | .sF64 bits => c.moveNextField (Value.float bits)
  | .sChar ch => c.moveNextField (Value.str (toString ch))
  | .sStr s => c.moveNextField (Value.str s)
  | .sBytes bs => c.moveNextField (Value.bytes bs)
  | .sNone => c.moveNextField Value.none
  | .sUnit => c.moveNextField Value.none
  | .sUnitStruct _ => c.moveNextField Value.none
  | .sSome v' => serializeValue c v'
  | .sUnitVariant _ _ vn => c.moveNextField (Value.str vn)
  | .sNewtypeStruct _ v' => serializeValue c v'
  | .sNewtypeVariant _ _ _ _ => .fatal "not implemented"
  | .sSeq elems =>
      (serializeSeqElems (c.pushPathNoChildFields) elems).okMap FieldCollector.popPath
  | .sTuple elems =>
      (serializeSeqElems (c.pushPath) elems).okMap FieldCollector.popPath
  | .sTupleStruct _ elems =>
      (serializeSeqElems (c.pushPath) elems).okMap FieldCollector.popPath
  | .sTupleVariant _ _ _ _ => .fatal "not implemented"
  | .sMap entries =>
      (serializeMapEntries (c.pushPath) entries).okMap FieldCollector.popPath
  | .sStruct _ fs =>
      (serializeStructFields (c.pushPath) fs).okMap FieldCollector.popPath
  | .sStructVariant _ _ _ _ => .fatal "not implemented"

/-- Sequence / tuple elements: `serialize_element` in order. -/
def serializeSeqElems (c : FieldCollector) (elems : List SValue) : SerOutcome FieldCollector :=
  match elems with
  | [] => .ok c
  | v :: rest =>
      match serializeValue c v with
      | .ok c' => serializeSeqElems c' rest
      | .err m => .err m
      | .fatal m => .fatal m

/-- Map entries: `serialize_key` renders the key through `KeyCollector`
and `expect`s the result (a non-scalar key therefore panics), then
`serialize_value` recurses. -/
def serializeMapEntries (c : FieldCollector) (entries : List (SValue × SValue)) : SerOutcome FieldCollector :=
  match entries with
  | [] => .ok c
  | (k, v) :: rest =>
      match serializeKey k with
      | .ok ks =>
          match c.setCurrentField ks with
          | .ok c' =>
              match serializeValue c' v with
              | .ok c'' => serializeMapEntries c'' rest
              | .err m => .err m
              | .fatal m => .fatal m
          | .err m => .err m
          | .fatal m => .fatal m
      | .err _ => .fatal "invalid key"
      | .fatal m => .fatal m

/-- Struct fields: `serialize_field` sets the pending key then recurses. -/
def serializeStructFields (c : FieldCollector) (fs : List (String × SValue)) : SerOutcome FieldCollector :=
  match fs with
  | [] => .ok c
  | (k, v) :: rest =>
      match c.setCurrentField k with
      | .ok c' =>
          match serializeValue c' v with
          | .ok c'' => serializeStructFields c'' rest
          | .err m => .err m
          | .fatal m => .fatal m
      | .err m => .err m
      | .fatal m => .fatal m

end

/-- Flatten a record into its ordered `(path, Value)` list
(`doc.serialize(&mut FieldCollector::new())` followed by reading
`ser.fields`). -/
def flattenFields (v : SValue) : SerOutcome (List (String × Value)) :=
  (serializeValue FieldCollector.new v).okMap FieldCollector.fields

/-- The exact sequence fed to the fingerprint hasher by `Doc::build`: the
`(path, type-tag)` pair of every flattened field, in flattening order. -/
def fingerprintInput (fields : List (String × Value)) : List (String × String) :=
  fields.map (fun kv => (kv.1, kv.2.ty))

/-- Mirrors `schema.rs` `struct Doc`: a flattened record plus its
fingerprint (`IndexId`). -/
structure Doc where
  index : Nat
  fields : List (String × Value)
deriving Repr, DecidableEq

/-- Mirrors `Doc::build`, parameterised by the hash function standing in
for `std::collections::hash_map::DefaultHasher` (an external collaborator):
flatten, then hash the ordered `(path, type-tag)` sequence. -/
def Doc.build (hasher : List (String × String) → Nat) (v : SValue) : SerOutcome Doc :=
  match flattenFields v with
  | .ok fields => .ok ⟨hasher (fingerprintInput fields), fields⟩
  | .err m => .err m
  | .fatal m => .fatal m

/-- Tantivy field option flags; `|` on options is componentwise or. -/
structure FieldOptions where
  fast : Bool
  stored : Bool
  indexed : Bool
  tokenized : Bool
deriving Repr, DecidableEq

/-- The tantivy `FAST` flag. -/
def FAST : FieldOptions := ⟨true, false, false, false⟩

/-- The tantivy `STORED` flag. -/
def STORED : FieldOptions := ⟨false, true, false, false⟩

/-- The tantivy `STRING` option (indexed untokenized). -/
def STRING : FieldOptions := ⟨false, false, true, false⟩

/-- The tantivy `TEXT` option (indexed and tokenized). -/
def TEXT : FieldOptions := ⟨false, false, true, true⟩

/-- The `|` operator on tantivy options. -/
def FieldOptions.orOpt (a b : FieldOptions) : FieldOptions :=
  ⟨a.fast || b.fast, a.stored || b.stored, a.indexed || b.indexed, a.tokenized || b.tokenized⟩

/-- The column kind a schema field is declared with. -/
inductive FieldEntryKind where
  | i64Field
  | bytesField
  | textField
deriving Repr, DecidableEq

/-- One declared schema field. -/
structure FieldEntry where
  name : String
  kind : FieldEntryKind
  options : FieldOptions
deriving Repr, DecidableEq

/-- Mirrors `Schema::get_field` / the `seen` map lookups: first entry with
the given name. -/
def lookupEntry : List FieldEntry → String → Option FieldEntry
  | [], _ => Option.none
  | e :: rest, k => if e.name = k then Option.some e else lookupEntry rest k

/-- First-occurrence lookup in the `seen` path → type-tag association. -/
def lookupSeen : List (String × String) → String → Option String
  | [], _ => Option.none
  | e :: rest, k => if e.1 = k then Option.some e.2 else lookupSeen rest k

/-- The schema field declared for the first occurrence of a path with the
given `Value`: the match inside `Doc::indexable`'s schema loop.
`Value::None` declares nothing. -/
def entryFor (k : String) : Value → Option FieldEntry
  | .signed _ => Option.some ⟨k, .i64Field, FAST⟩
  | .unsigned _ => Option.some ⟨k, .i64Field, FAST⟩
  | .float _ => Option.some ⟨k, .i64Field, FAST⟩
  | .bytes _ => Option.some ⟨k, .bytesField, ⟨false, false, false, false⟩⟩
  | .bool _ => Option.some ⟨k, .textField, STRING.orOpt STORED⟩
  | .str _ => Option.some ⟨k, .textField, TEXT.orOpt STORED⟩
  | .none => Option.none

/-- The schema-building loop of `Doc::indexable`: each path is declared
once, from its first value; a duplicate path whose type tag differs from
the recorded one fails the `assert!`. -/
def buildSchemaGo (seen : List (String × String)) (schema : List FieldEntry) :
    List (String × Value) → SerOutcome (List FieldEntry)
  | [] => .ok schema
  | (k, v) :: rest =>
      match lookupSeen seen k with
      | Option.some ty =>
          if ty = v.ty then buildSchemaGo seen schema rest
          else .fatal "assertion failed: duplicate entry type mismatch"
      | Option.none =>
          buildSchemaGo (seen ++ [(k, v.ty)])
            (match entryFor k v with
             | Option.some e => schema ++ [e]
             | Option.none => schema) rest

/-- Build the tantivy schema from a flattened field list. -/
def buildSchema (fields : List (String × Value)) : SerOutcome (List FieldEntry) :=
  buildSchemaGo [] [] fields

/-- A value appended to a tantivy `Document`, tagged by the `add_*`
method used. -/
inductive DocValue where
  | i64Val (i : Int)
  | u64Val (n : Nat)
  | bytesVal (bs : List Nat)
  | textVal (s : String)
deriving Repr, DecidableEq

/-- The `add_*` encoding of one non-`None` value in the document loop of
`Doc::indexable`: floats are appended as `add_u64` of their raw bit
pattern, bools as the literal text `true` / `false`. -/
def encodeVal : Value → DocValue
  | .signed i => .i64Val i
  | .unsigned n => .u64Val n
  | .float bits => .u64Val bits
  | .bytes bs => .bytesVal bs
  | .bool b => .textVal (if b then "true" else "false")
  | .str s => .textVal s
  | .none => .textVal ""

/-- The document-building loop of `Doc::indexable`: every field looks its
path up in the schema (`expect("missing field")` panics when absent) and
appends the type-specific encoding. -/
def buildDocument (schema : List FieldEntry) :
    List (String × Value) → SerOutcome (List (String × DocValue))
  | [] => .ok []
  | (k, v) :: rest =>
      match v with
      | .none =>
          buildDocument schema rest
      | _ =>
          match lookupEntry schema k with
          | Option.none => .fatal "missing field"
          | Option.some _ =>
              (buildDocument schema rest).okMap (fun doc => (k, encodeVal v) :: doc)

/-- Mirrors `struct IndexableDoc`. -/
structure IndexableDoc where
  index : Nat
  schema : List FieldEntry
  doc : List (String × DocValue)
deriving Repr, DecidableEq

/-- Mirrors `Doc::indexable`: build the schema, then materialise the
document against it. -/
def Doc.indexable (d : Doc) : SerOutcome IndexableDoc :=
  match buildSchema d.fields with
  | .ok schema =>
      (buildDocument schema d.fields).okMap (fun doc => ⟨d.index, schema, doc⟩)
  | .err m => .err m
  | .fatal m => .fatal m

/-- The test fixture of `schema.rs`: the record
`{a: 1, b: "Hello!", c: {a: false, b: ('a','b')}, d: [13, 42]}`. -/
def exampleRecord : SValue :=
  .sStruct "Record"
    [("a", .sI64 1),
     ("b", .sStr "Hello!"),
     ("c", .sStruct "Inner"
        [("a", .sBool false),
         ("b", .sTuple [.sChar 'a', .sChar 'b'])]),
     ("d", .sSeq [.sI64 13, .sI64 42])]

/-- The flattened field list the spec promises for `exampleRecord`. -/
def exampleExpected : List (String × Value) :=
  [("a", .signed 1),
   ("b", .str "Hello!"),
   ("c.a", .bool false),
   ("c.b._0", .str "a"),
   ("c.b._1", .str "b"),
   ("d", .signed 13),
   ("d", .signed 42)]

/-- The schema field that the build loop declares for a path `k` first
seen with type tag `t` (the `entryFor` match, keyed by the tag). -/
def entryForTy (k : String) (t : String) : Option FieldEntry :=
  if t = "signed" ∨ t = "unsigned" ∨ t = "float" then
    Option.some ⟨k, .i64Field, FAST⟩
  else if t = "bytes" then Option.some ⟨k, .bytesField, ⟨false, false, false, false⟩⟩
  else if t = "bool" then Option.some ⟨k, .textField, STRING.orOpt STORED⟩
  else if t = "string" then Option.some ⟨k, .textField, TEXT.orOpt STORED⟩
  else Option.none

/-- The `seen` map and the schema built so far stay in lockstep: a path
is declared exactly when it was seen, with the entry its first type tag
dictates. -/
def SchemaAgrees (seen : List (String × String)) (schema : List FieldEntry) : Prop :=
  ∀ k, lookupEntry schema k = (lookupSeen seen k).bind (entryForTy k)

/-- A value is numeric when the schema declares it as an i64 fast column. -/
def Value.isNumeric : Value → Prop
  | .signed _ => True
  | .unsigned _ => True
  | .float _ => True
  | _ => False

end Schema

namespace SerOutcome

/-- True exactly on a returned error. -/
def isErr {α : Type} : SerOutcome α → Bool
  | .ok _ => false
  | .err _ => true
  | .fatal _ => false

/-- True exactly on a panic. -/
def isFatal {α : Type} : SerOutcome α → Bool
  | .ok _ => false
  | .err _ => false
  | .fatal _ => true

/-- True exactly on success. -/
def isOk {α : Type} : SerOutcome α → Bool
  | .ok _ => true
  | .err _ => false
  | .fatal _ => false

end SerOutcome

namespace Schema

mutual

/-- A record contains an unsupported shape, in the sense of the spec's
FlattenError taxonomy, when anywhere inside it there is a data-carrying
enum variant (newtype, tuple or struct variant — the serializer arms
left `unimplemented!()`) or a map entry whose key `KeyCollector` rejects
(a non-scalar map key). -/
def containsUnsupported : SValue → Bool
  | .sNewtypeVariant _ _ _ _ => true
  | .sTupleVariant _ _ _ _ => true
  | .sStructVariant _ _ _ _ => true
  | .sSome v => containsUnsupported v
  | .sNewtypeStruct _ v => containsUnsupported v
  | .sSeq elems => listContainsUnsupported elems
  | .sTuple elems => listContainsUnsupported elems
  | .sTupleStruct _ elems => listContainsUnsupported elems
  | .sMap entries => mapContainsUnsupported entries
  | .sStruct _ fs => fieldsContainsUnsupported fs
  | _ => false

/-- Some element of a sequence or tuple contains an unsupported shape. -/
def listContainsUnsupported : List SValue → Bool
  | [] => false
  | v :: rest => containsUnsupported v || listContainsUnsupported rest

/-- Some map entry has a non-scalar key or a value containing an
unsupported shape. -/
def mapContainsUnsupported : List (SValue × SValue) → Bool
  | [] => false
  | (k, v) :: rest =>
      (serializeKey k).isErr || containsUnsupported v || mapContainsUnsupported rest

/-- Some struct field's value contains an unsupported shape. -/
def fieldsContainsUnsupported : List (String × SValue) → Bool
  | [] => false
  | (_, v) :: rest => containsUnsupported v || fieldsContainsUnsupported rest

end

end Schema


namespace StoreM

/-- Mirrors `store.rs` `Index` handles as registered in the store: an
in-RAM index created from a schema (`Index::create_in_ram`). -/
structure IndexHandle where
  schema : List Schema.FieldEntry
deriving Repr, DecidableEq

/-- The store's shared state: the fingerprint → `Index` map.  `HashMap`
lookups are keyed exactly; the association list keeps insertion order,
which no modelled operation observes through the map API. -/
abbrev StoreState := List (Nat × IndexHandle)

/-- Mirrors `HashMap::get` on the registry. -/
def lookupIndex (st : StoreState) (id : Nat) : Option IndexHandle :=
  (st.find? (fun e => e.1 == id)).map (fun e => e.2)

/-- Mirrors `Store::new`. -/
def StoreState.new : StoreState := []

/-- Mirrors `Store::get_writer`, with the engine's writer acquisition
(`index.writer(HEAP_SIZE)`) injected as `writerOk`: under the lock, an
existing index yields a writer and leaves the map unchanged; otherwise a
new in-RAM index is created from the document's schema and registered
only after its writer is acquired.  The writer is modelled by the id of
the index it writes to. -/
def getWriter (writerOk : Bool) (st : StoreState) (d : Schema.IndexableDoc) :
    SerOutcome (Nat × StoreState) :=
  match lookupIndex st d.index with
  | Option.some _ =>
      if writerOk then .ok (d.index, st) else .err "writer acquisition failed"
  | Option.none =>
      if writerOk then .ok (d.index, st ++ [(d.index, ⟨d.schema⟩)])
      else .err "writer acquisition failed"

/-- Mirrors `Store::indexes`: a point-in-time clone of the map. -/
def indexes (st : StoreState) : List (Nat × IndexHandle) := st

end StoreM

namespace IndexM

/-- Mirrors `index.rs` `struct Indexer`: the per-instance fingerprint →
open-writer cache (writers modelled by their index id). -/
structure Indexer where
  writers : List (Nat × Nat)
deriving Repr, DecidableEq

/-- Mirrors `HashMap::get_mut` on the writer cache. -/
def lookupWriter (ix : Indexer) (id : Nat) : Option Nat :=
  (ix.writers.find? (fun e => e.1 == id)).map (fun e => e.2)

/-- Mirrors `Indexer::new`. -/
def Indexer.new : Indexer := ⟨[]⟩

/-- Mirrors `Indexer::index`, with the engine's fallible operations
injected (`writerOk` for writer acquisition, `commitOk` for commit;
`add_document` is infallible in the engine API used).  Returns the
outcome together with the indexer and store state as they stand after
the call — on a returned error the caller keeps both.  Cache-hit path:
materialise, add, commit.  Cache-miss path: materialise, acquire a
writer via the store, add, commit, and only then cache the writer. -/
def Indexer.index (hasher : List (String × String) → Nat)
    (writerOk commitOk : Bool) (ix : Indexer) (st : StoreM.StoreState)
    (record : Schema.SValue) : SerOutcome Unit × Indexer × StoreM.StoreState :=
  match Schema.Doc.build hasher record with
  | .err m => (.err m, ix, st)
  | .fatal m => (.fatal m, ix, st)
  | .ok doc =>
      match lookupWriter ix doc.index with
      | Option.some _ =>
          match doc.indexable with
          | .err m => (.err m, ix, st)
          | .fatal m => (.fatal m, ix, st)
          | .ok _ =>
              if commitOk then (.ok (), ix, st) else (.err "commit failed", ix, st)
      | Option.none =>
          match doc.indexable with
          | .err m => (.err m, ix, st)
          | .fatal m => (.fatal m, ix, st)
          | .ok i =>
              match StoreM.getWriter writerOk st i with
              | .err m => (.err m, ix, st)
              | .fatal m => (.fatal m, ix, st)
              | .ok (w, st') =>
                  if commitOk then
                    (.ok (), ⟨ix.writers ++ [(doc.index, w)]⟩, st')
                  else (.err "commit failed", ix, st')

end IndexM

namespace Search

/-- Mirrors `searcher.rs` `struct Doc`: a scored hit.  `score : Int` is an
order-embedding of the non-NaN `f32` scores; `address` is the tantivy
`DocAddress(segment id, local doc id)`. -/
structure Doc where
  score : Int
  index : Nat
  address : Nat × Nat
deriving Repr, DecidableEq

instance : Inhabited Doc := ⟨⟨0, 0, (0, 0)⟩⟩

/-- The `f32` `partial_cmp`: total (`some`) on the non-NaN scores the
embedding carries. -/
def scoreCmpOpt (x y : Int) : Option Ordering :=
  Option.some (compare x y)

/-- The derived lexicographic `Ord` of tantivy's `DocAddress`. -/
def addressCmp (x y : Nat × Nat) : Ordering :=
  (compare x.1 y.1).then (compare x.2 y.2)

/-- Mirrors `impl Ord for Doc`: scores compared reversed (the min-score
hit is the `Ord`-greatest), with the reversed address comparison as the
`unwrap_or_else` fallback used only when the scores are incomparable. -/
def docCmp (self other : Doc) : Ordering :=
  (scoreCmpOpt other.score self.score).getD (addressCmp other.address self.address)

/-- Zero-based indexing into the heap's backing vector (`data[i]`). -/
def nth : List Doc → Nat → Doc
  | [], _ => default
  | d :: _, 0 => d
  | _ :: rest, n + 1 => nth rest n

/-- Rust `BinaryHeap` sift-up (as in `std`): move the element at `pos` up
while it is strictly `Ord`-greater than its parent. -/
def siftUp (l : List Doc) (pos : Nat) : List Doc :=
  if pos = 0 then l
  else
    let parent := (pos - 1) / 2
    if docCmp (nth l pos) (nth l parent) = .gt then
      siftUp ((l.set pos (nth l parent)).set parent (nth l pos)) parent
    else l
termination_by pos
decreasing_by simp_wf; omega

/-- Rust `BinaryHeap::push`: append, then sift up from the last slot. -/
def heapPush (l : List Doc) (d : Doc) : List Doc :=
  siftUp (l ++ [d]) l.length

/-- Child selection of the `std` sift-down loop: the `Ord`-greater
(lower-scored) of the two children of `pos`, preferring the right child
on ties, or the left child when it is the only one. -/
def pickChild (l : List Doc) (pos : Nat) : Nat :=
  if 2 * pos + 2 < l.length ∧ ¬docCmp (nth l (2 * pos + 1)) (nth l (2 * pos + 2)) = .gt then
    2 * pos + 2
  else 2 * pos + 1

/-- Rust `BinaryHeap` sift-down (as in `std`, run by `PeekMut::drop`
after the root is mutated): descend while the element is strictly
`Ord`-less than its greater child. -/
def siftDown (l : List Doc) (pos : Nat) : List Doc :=
  if _hL : 2 * pos + 1 < l.length then
    if docCmp (nth l pos) (nth l (pickChild l pos)) = .lt then
      siftDown ((l.set pos (nth l (pickChild l pos))).set (pickChild l pos) (nth l pos))
        (pickChild l pos)
    else l
  else l
termination_by l.length - pos
decreasing_by
  simp_wf
  unfold pickChild
  split
  all_goals omega

/-- Mirrors `struct MultiIndexCollector`; `heap` is the backing vector of
the `BinaryHeap`, root first. -/
structure MultiIndexCollector where
  limit : Nat
  heap : List Doc
  segmentId : Nat
deriving Repr

/-- Mirrors `MultiIndexCollector::with_limit` (`panic!` on a zero limit). -/
def withLimit (limit : Nat) : SerOutcome MultiIndexCollector :=
  if limit < 1 then .fatal "Limit must be strictly greater than 0."
  else .ok ⟨limit, [], 0⟩

/-- Mirrors `MultiIndexCollector::at_capacity`. -/
def atCapacity (c : MultiIndexCollector) : Bool :=
  c.limit ≤ c.heap.length

/-- Mirrors `MultiIndexCollector::set_segment_id`. -/
def setSegmentId (c : MultiIndexCollector) (segmentId : Nat) : MultiIndexCollector :=
  { c with segmentId := segmentId }

/-- Mirrors `MultiIndexCollector::collect`: below capacity, push a new
`Doc` wrapping the hit; at capacity, `peek` the `Ord`-greatest (weakest)
entry (`expect` panics on an empty heap) and, when the new score is
strictly greater, overwrite that entry's score and address in place
through `peek_mut` — leaving its `index` field as it was — and restore
the heap by sifting down. -/
def collect (c : MultiIndexCollector) (index : Nat) (doc : Nat) (score : Int) :
    SerOutcome MultiIndexCollector :=
  if atCapacity c then
    match c.heap.head? with
    | Option.none => .fatal "Collector with size 0 is forbidden"
    | Option.some limitDoc =>
        if limitDoc.score < score then
          .ok { c with
            heap := siftDown
              (c.heap.set 0 { limitDoc with score := score, address := (c.segmentId, doc) }) 0 }
        else .ok c
  else
    .ok { c with heap := heapPush c.heap ⟨score, index, (c.segmentId, doc)⟩ }

/-- A hit offered during query execution: the engine announces the
segment (`Collector::set_segment`) and then the scored local doc id;
`index` is the fingerprint `CurrentIndexCollector` was begun with. -/
structure Hit where
  index : Nat
  segment : Nat
  doc : Nat
  score : Int
deriving Repr, DecidableEq

/-- One hit through `CurrentIndexCollector`: `set_segment` followed by
`collect`. -/
def collectHit (c : MultiIndexCollector) (h : Hit) : SerOutcome MultiIndexCollector :=
  collect (setSegmentId c h.segment) h.index h.doc h.score

/-- Offer a sequence of hits in order, propagating panics. -/
def runHits (c : MultiIndexCollector) (hits : List Hit) : SerOutcome MultiIndexCollector :=
  match hits with
  | [] => .ok c
  | h :: rest =>
      match collectHit c h with
      | .ok c' => runHits c' rest
      | .err m => .err m
      | .fatal m => .fatal m

/-- Stable insertion into an `Ord`-ascending sorted list: the new element
lands after every element not `Ord`-greater than it. -/
def sortedInsert (d : Doc) : List Doc → List Doc
  | [] => [d]
  | x :: xs => if docCmp x d = .gt then d :: x :: xs else x :: sortedInsert d xs

/-- Stable sort by the `Doc` ordering, ascending; extensionally equal to
`Vec::sort` (also a stable sort by `Ord`) on every input. -/
def sortDocs (l : List Doc) : List Doc :=
  l.foldl (fun acc x => sortedInsert x acc) []

/-- Mirrors `MultiIndexCollector::top_docs`: clone the heap's contents in
backing-vector order and sort them. -/
def topDocs (c : MultiIndexCollector) : List Doc :=
  sortDocs c.heap

/-- Mirrors `Searcher::search`, with the engine injected: `perIndex id`
is the outcome of `load_searchers` + `parse_query` + `searcher.search`
for the index with fingerprint `id`, as the ordered hit list it feeds
the collector (hits carry their segment id; the fingerprint is forced to
`id`, as `CurrentIndexCollector::begin(id, …)` does).  The search walks
the store's snapshot in order, collects into one shared collector, and
returns the drained top docs together with the store state after the
call. -/
def searchGo (perIndex : Nat → SerOutcome (List (Nat × Nat × Int)))
    (c : MultiIndexCollector) :
    List (Nat × StoreM.IndexHandle) → SerOutcome MultiIndexCollector
  | [] => .ok c
  | (id, _) :: rest =>
      match perIndex id with
      | .err m => .err m
      | .fatal m => .fatal m
      | .ok segHits =>
          match runHits c (segHits.map (fun sh => ⟨id, sh.1, sh.2.1, sh.2.2⟩)) with
          | .ok c' => searchGo perIndex c' rest
          | .err m => .err m
          | .fatal m => .fatal m

/-- The search pipeline: build the collector, feed it every index's hits,
drain.  The returned store state is the one the call leaves behind. -/
def search (perIndex : Nat → SerOutcome (List (Nat × Nat × Int)))
    (st : StoreM.StoreState) (limit : Nat) :
    SerOutcome (List Doc) × StoreM.StoreState :=
  (match withLimit limit with
   | .ok c0 =>
       match searchGo perIndex c0 (StoreM.indexes st) with
       | .ok c => .ok (topDocs c)
       | .err m => .err m
       | .fatal m => .fatal m
   | .err m => .err m
   | .fatal m => .fatal m,
   st)

/-- The `(fingerprint, address)` pairs resolution will fetch through:
`lookup[&doc.index]` then `searcher.doc(doc.address)` for each drained
entry. -/
def resolutionPairs (c : MultiIndexCollector) : List (Nat × (Nat × Nat)) :=
  (topDocs c).map (fun d => (d.index, d.address))

/-- The ordering the spec claims for drained entries: score strictly
descending, with ties broken by (fingerprint, segment id, local doc id)
ascending. -/
def tieBreakOrd (a b : Doc) : Prop :=
  b.score < a.score ∨
    (a.score = b.score ∧
      (a.index < b.index ∨
        (a.index = b.index ∧
          (a.address.1 < b.address.1 ∨
            (a.address.1 = b.address.1 ∧ a.address.2 < b.address.2)))))

instance (a b : Doc) : Decidable (tieBreakOrd a b) := by
  unfold tieBreakOrd
  infer_instance

/-- The binary-heap shape invariant of the collector's `BinaryHeap` under
the `Doc` ordering: every parent is `Ord`-at-least its children, i.e. the
parent's score is at most the child's (a min-heap on scores). -/
def HeapInv (l : List Doc) : Prop :=
  ∀ i, 0 < i → i < l.length → (nth l ((i - 1) / 2)).score ≤ (nth l i).score

/-- During sift-up only the edge into the hole may be unordered; the
hole's children fit below the hole's parent. -/
structure SiftUpInv (l : List Doc) (hole : Nat) : Prop where
  bounded : hole < l.length
  heapExcept : ∀ i, 0 < i → i < l.length → i ≠ hole →
    (nth l ((i - 1) / 2)).score ≤ (nth l i).score
  holeChildren : 0 < hole → ∀ j, 0 < j → j < l.length → (j - 1) / 2 = hole →
    (nth l ((hole - 1) / 2)).score ≤ (nth l j).score

/-- During sift-down only the edges out of the hole may be unordered; the
hole's children fit below the hole's parent. -/
structure SiftDownInv (l : List Doc) (hole : Nat) : Prop where
  bounded : hole < l.length
  heapExcept : ∀ i, 0 < i → i < l.length → (i - 1) / 2 ≠ hole →
    (nth l ((i - 1) / 2)).score ≤ (nth l i).score
  holeChildren : 0 < hole → ∀ j, 0 < j → j < l.length → (j - 1) / 2 = hole →
    (nth l ((hole - 1) / 2)).score ≤ (nth l j).score

/-- Invariant of every reachable collector state: the backing vector is a
heap, holds at most `limit` entries, and the limit passed the
`with_limit` check. -/
def CollectorInv (c : MultiIndexCollector) : Prop :=
  HeapInv c.heap ∧ c.heap.length ≤ c.limit ∧ 1 ≤ c.limit

/-- The collector state after constructing with `with_limit L` and
offering `hits` in order. -/
def collectorAfter (L : Nat) (hits : List Hit) : SerOutcome MultiIndexCollector :=
  match withLimit L with
  | .ok c0 => runHits c0 hits
  | .err m => .err m
  | .fatal m => .fatal m

/-- Weakly descending by score. -/
def scoreDescending (l : List Doc) : Prop :=
  l.Pairwise (fun a b => b.score ≤ a.score)

/-! Facts about the `Doc` ordering: the address fallback is dead for
totally ordered scores, so the ordering is exactly the reversed score
comparison. -/

theorem docCmp_def (a b : Doc) : docCmp a b = compare b.score a.score := rfl

theorem docCmp_gt_iff (a b : Doc) : docCmp a b = .gt ↔ a.score < b.score := by
  rw [docCmp_def]; exact compare_gt_iff_gt

theorem docCmp_lt_iff (a b : Doc) : docCmp a b = .lt ↔ b.score < a.score := by
  rw [docCmp_def]; exact compare_lt_iff_lt

theorem not_docCmp_gt_iff (a b : Doc) : ¬docCmp a b = .gt ↔ b.score ≤ a.score := by
  rw [docCmp_gt_iff]; exact not_lt

/-! Indexing lemmas for the heap's backing vector. -/

theorem nth_append_lt (l m : List Doc) (i : Nat) (h : i < l.length) :
    nth (l ++ m) i = nth l i := by
  induction l generalizing i with
  | nil => simp at h
  | cons x xs ih =>
      cases i with
      | zero => rfl
      | succ n => simpa [nth] using ih n (by simpa using h)

theorem nth_append_len (l : List Doc) (d : Doc) : nth (l ++ [d]) l.length = d := by
  induction l with
  | nil => rfl
  | cons x xs ih => simpa [nth] using ih

theorem nth_set_eq (l : List Doc) (i : Nat) (x : Doc) (h : i < l.length) :
    nth (l.set i x) i = x := by
  induction l generalizing i with
  | nil => simp at h
  | cons y ys ih =>
      cases i with
      | zero => rfl
      | succ n => simpa [nth, List.set] using ih n (by simpa using h)

theorem nth_set_ne (l : List Doc) (i j : Nat) (x : Doc) (h : i ≠ j) :
    nth (l.set i x) j = nth l j := by
  induction l generalizing i j with
  | nil => simp [List.set]
  | cons y ys ih =>
      cases i with
      | zero =>
          cases j with
          | zero => exact absurd rfl h
          | succ n => rfl
      | succ m =>
          cases j with
          | zero => rfl
          | succ n => simpa [nth, List.set] using ih m n (by omega)

theorem nth_mem (l : List Doc) (i : Nat) (h : i < l.length) : nth l i ∈ l := by
  induction l generalizing i with
  | nil => simp at h
  | cons x xs ih =>
      cases i with
      | zero => simp [nth]
      | succ n => exact List.mem_cons_of_mem _ (ih n (by simpa using h))

theorem mem_nth (l : List Doc) (x : Doc) (h : x ∈ l) :
    ∃ i, i < l.length ∧ nth l i = x := by
  induction l with
  | nil => simp at h
  | cons y ys ih =>
      rcases List.mem_cons.mp h with rfl | hmem
      · exact ⟨0, by simp, rfl⟩
      · obtain ⟨i, hi, hx⟩ := ih hmem
        exact ⟨i + 1, by simpa using hi, hx⟩

/-! Length preservation of the sift operations. -/

theorem siftUp_length (l : List Doc) (pos : Nat) : (siftUp l pos).length = l.length := by
  induction l, pos using siftUp.induct with
  | case1 l => simp [siftUp]
  | case2 l pos h0 parent hgt ih =>
      rw [siftUp]
      simp only [if_neg h0, if_pos hgt]
      simpa [List.length_set] using ih
  | case3 l pos h0 parent hngt =>
      rw [siftUp]
      simp [if_neg h0, hngt]

theorem heapPush_length (l : List Doc) (d : Doc) :
    (heapPush l d).length = l.length + 1 := by
  simp [heapPush, siftUp_length]

theorem pickChild_cases (l : List Doc) (pos : Nat) :
    pickChild l pos = 2 * pos + 1 ∨
      (pickChild l pos = 2 * pos + 2 ∧ 2 * pos + 2 < l.length) := by
  unfold pickChild
  split
  · next hc => exact Or.inr ⟨rfl, hc.1⟩
  · exact Or.inl rfl

theorem pickChild_min_left (l : List Doc) (pos : Nat) :
    (nth l (pickChild l pos)).score ≤ (nth l (2 * pos + 1)).score := by
  unfold pickChild
  split
  · next hc => exact (not_docCmp_gt_iff _ _).mp hc.2
  · exact le_refl _

theorem pickChild_min_right (l : List Doc) (pos : Nat) (h : 2 * pos + 2 < l.length) :
    (nth l (pickChild l pos)).score ≤ (nth l (2 * pos + 2)).score := by
  unfold pickChild
  split
  · exact le_refl _
  · next hc =>
      have := not_and.mp hc h
      have hgt : docCmp (nth l (2 * pos + 1)) (nth l (2 * pos + 2)) = .gt := by
        by_contra hng; exact this hng
      exact le_of_lt ((docCmp_gt_iff _ _).mp hgt)

theorem siftUp_heapInv (pos : Nat) (l : List Doc) (h : SiftUpInv l pos) :
    HeapInv (siftUp l pos) := by
  induction pos using Nat.strong_induction_on generalizing l with
  | _ pos ih =>
    rw [siftUp]
    by_cases h0 : pos = 0
    · simp only [if_pos h0]
      intro i hi hlen
      exact h.heapExcept i hi hlen (by omega)
    · simp only [if_neg h0]
      by_cases hgt : docCmp (nth l pos) (nth l ((pos - 1) / 2)) = .gt
      · simp only [if_pos hgt]
        have hb : pos < l.length := h.bounded
        have hswap : (nth l pos).score < (nth l ((pos - 1) / 2)).score :=
          (docCmp_gt_iff _ _).mp hgt
        set l₂ := (l.set pos (nth l ((pos - 1) / 2))).set ((pos - 1) / 2) (nth l pos) with hl2
        have len₂ : l₂.length = l.length := by rw [hl2]; simp [List.length_set]
        have n2par : nth l₂ ((pos - 1) / 2) = nth l pos := by
          rw [hl2]; exact nth_set_eq _ _ _ (by simp only [List.length_set]; omega)
        have n2pos : nth l₂ pos = nth l ((pos - 1) / 2) := by
          rw [hl2, nth_set_ne _ _ pos _ (by omega)]
          exact nth_set_eq l pos _ hb
        have n2other : ∀ j, j ≠ pos → j ≠ (pos - 1) / 2 → nth l₂ j = nth l j := by
          intro j hjp hjpar
          rw [hl2, nth_set_ne _ _ j _ (Ne.symm hjpar), nth_set_ne l pos j _ (Ne.symm hjp)]
        apply ih ((pos - 1) / 2) (by omega)
        constructor
        · omega
        · intro i hi hlen hipar
          rw [len₂] at hlen
          by_cases hip : i = pos
          · subst hip
            rw [n2par, n2pos]
            exact le_of_lt hswap
          · have hni : nth l₂ i = nth l i := n2other i hip hipar
            by_cases hpp : (i - 1) / 2 = pos
            · rw [hpp, n2pos, hni]
              exact h.holeChildren (by omega) i hi hlen hpp
            · by_cases hppar : (i - 1) / 2 = (pos - 1) / 2
              · rw [hppar, n2par, hni]
                have h1 := h.heapExcept i hi hlen hip
                rw [hppar] at h1
                exact le_trans (le_of_lt hswap) h1
              · rw [hni, n2other _ hpp hppar]
                exact h.heapExcept i hi hlen hip
        · intro hpar0 j hj hjlen hjpar
          rw [len₂] at hjlen
          rw [n2other (((pos - 1) / 2 - 1) / 2) (by omega) (by omega)]
          by_cases hjp : j = pos
          · rw [hjp, n2pos]
            exact h.heapExcept ((pos - 1) / 2) (by omega) (by omega) (by omega)
          · rw [n2other j hjp (by omega)]
            have h1 := h.heapExcept j hj hjlen hjp
            rw [hjpar] at h1
            have h2 := h.heapExcept ((pos - 1) / 2) (by omega) (by omega) (by omega)
            exact le_trans h2 h1
      · simp only [if_neg hgt]
        intro i hi hlen
        by_cases hip : i = pos
        · subst hip
          exact (not_docCmp_gt_iff _ _).mp hgt
        · exact h.heapExcept i hi hlen hip

theorem heapPush_heapInv (l : List Doc) (d : Doc) (h : HeapInv l) :
    HeapInv (heapPush l d) := by
  apply siftUp_heapInv
  constructor
  · simp only [List.length_append, List.length_cons, List.length_nil]
    omega
  · intro i hi hlen hne
    have hilt : i < l.length := by
      simp only [List.length_append, List.length_cons, List.length_nil] at hlen
      omega
    rw [nth_append_lt _ _ _ hilt, nth_append_lt _ _ _ (by omega)]
    exact h i hi hilt
  · intro h0 j hj hjlen hjpar
    simp only [List.length_append, List.length_cons, List.length_nil] at hjlen
    omega

theorem siftDown_heapInv (l : List Doc) (pos : Nat) :
    SiftDownInv l pos → HeapInv (siftDown l pos) := by
  induction l, pos using siftDown.induct with
  | case1 l pos hL hlt ih =>
      intro h
      rw [siftDown]
      simp only [dif_pos hL, if_pos hlt]
      have hchlb : 2 * pos + 1 ≤ pickChild l pos := by
        rcases pickChild_cases l pos with hc | ⟨hc, _⟩ <;> omega
      have hchub : pickChild l pos ≤ 2 * pos + 2 := by
        rcases pickChild_cases l pos with hc | ⟨hc, _⟩ <;> omega
      have hchlt : pickChild l pos < l.length := by
        rcases pickChild_cases l pos with hc | ⟨hc, hlen⟩ <;> omega
      have hswap : (nth l (pickChild l pos)).score < (nth l pos).score :=
        (docCmp_lt_iff _ _).mp hlt
      set ch := pickChild l pos with hchdef
      set l₂ := (l.set pos (nth l ch)).set ch (nth l pos) with hl2
      have len₂ : l₂.length = l.length := by simp [hl2, List.length_set]
      have hchpar : (ch - 1) / 2 = pos := by omega
      have n2ch : nth l₂ ch = nth l pos := by
        rw [hl2]; exact nth_set_eq _ ch _ (by simp [List.length_set]; omega)
      have n2pos : nth l₂ pos = nth l ch := by
        rw [hl2, nth_set_ne _ ch pos _ (by omega)]
        exact nth_set_eq l pos _ (by omega)
      have n2other : ∀ j, j ≠ pos → j ≠ ch → nth l₂ j = nth l j := by
        intro j hjp hjch
        rw [hl2, nth_set_ne _ ch j _ (Ne.symm hjch), nth_set_ne l pos j _ (Ne.symm hjp)]
      apply ih
      constructor
      · omega
      · intro i hi hlen hich
        rw [len₂] at hlen
        by_cases hie : i = ch
        · subst hie
          rw [hchpar, n2ch, n2pos]
          exact le_of_lt hswap
        · by_cases hpp : (i - 1) / 2 = pos
          · rw [hpp, n2pos, n2other i (by omega) hie]
            have : i = 2 * pos + 1 ∨ i = 2 * pos + 2 := by omega
            rcases this with rfl | rfl
            · exact pickChild_min_left l pos
            · exact pickChild_min_right l pos hlen
          · by_cases hip : i = pos
            · rw [hip, n2pos, n2other ((pos - 1) / 2) (by omega) (by omega)]
              exact h.holeChildren (hip ▸ hi) ch (by omega) (by omega) hchpar
            · rw [n2other i hip hie, n2other _ hpp hich]
              exact h.heapExcept i hi hlen hpp
      · intro _ j hj hjlen hjch
        rw [len₂] at hjlen
        rw [hchpar, n2pos, n2other j (by omega) (by omega)]
        have := h.heapExcept j hj hjlen (by omega)
        rw [hjch] at this
        exact this
  | case2 l pos hL hnlt =>
      intro h
      rw [siftDown]
      simp only [dif_pos hL, if_neg hnlt]
      intro i hi hlen
      by_cases hpp : (i - 1) / 2 = pos
      · have hmq : (nth l pos).score ≤ (nth l (pickChild l pos)).score := by
          have := (docCmp_lt_iff (nth l pos) (nth l (pickChild l pos))).not.mp hnlt
          omega
        rw [hpp]
        have : i = 2 * pos + 1 ∨ i = 2 * pos + 2 := by omega
        rcases this with rfl | rfl
        · exact le_trans hmq (pickChild_min_left l pos)
        · exact le_trans hmq (pickChild_min_right l pos hlen)
      · exact h.heapExcept i hi hlen hpp
  | case3 l pos hnL =>
      intro h
      rw [siftDown]
      simp only [dif_neg hnL]
      intro i hi hlen
      by_cases hpp : (i - 1) / 2 = pos
      · omega
      · exact h.heapExcept i hi hlen hpp

/-- Replacing the root of a heap and sifting down restores the heap
invariant (the `peek_mut` mutation followed by `PeekMut::drop`). -/
theorem siftDown_set_zero_heapInv (l : List Doc) (m : Doc) (hne : l ≠ [])
    (h : HeapInv l) : HeapInv (siftDown (l.set 0 m) 0) := by
  apply siftDown_heapInv
  constructor
  · simp only [List.length_set]
    exact List.length_pos.mpr hne
  · intro i hi hlen hne0
    simp only [List.length_set] at hlen
    rw [nth_set_ne l 0 i m (by omega), nth_set_ne l 0 _ m (by omega)]
    exact h i hi hlen
  · intro h00
    omega

/-- In a heap the root has the minimum score: the heap head is the
weakest retained hit. -/
theorem HeapInv.rootMin (l : List Doc) (h : HeapInv l) :
    ∀ i, i < l.length → (nth l 0).score ≤ (nth l i).score := by
  intro i
  induction i using Nat.strong_induction_on with
  | _ i ih =>
    intro hlen
    rcases Nat.eq_zero_or_pos i with rfl | hi
    · exact le_refl _
    · exact le_trans (ih ((i - 1) / 2) (by omega) (by omega)) (h i hi hlen)

theorem HeapInv.rootMinMem (l : List Doc) (h : HeapInv l) (x : Doc) (hx : x ∈ l) :
    (nth l 0).score ≤ x.score := by
  obtain ⟨i, hi, rfl⟩ := mem_nth l x hx
  exact HeapInv.rootMin l h i hi

theorem head?_nth (l : List Doc) (d : Doc) (h : l.head? = Option.some d) :
    nth l 0 = d := by
  cases l with
  | nil => simp at h
  | cons x xs =>
      simp only [List.head?, Option.some.injEq] at h
      simp [nth, h]

theorem siftDown_length (l : List Doc) (pos : Nat) :
    (siftDown l pos).length = l.length := by
  induction l, pos using siftDown.induct with
  | case1 l pos hL hlt ih =>
      rw [siftDown]
      simp only [dif_pos hL, if_pos hlt]
      simpa [List.length_set] using ih
  | case2 l pos hL hnlt =>
      rw [siftDown]
      simp [dif_pos hL, hnlt]
  | case3 l pos hnL =>
      rw [siftDown]
      simp [dif_neg hnL]

/-! The collector's state invariant and the behaviour of `collect`. -/

theorem withLimit_collectorInv (L : Nat) (hL : 1 ≤ L) :
    withLimit L = .ok ⟨L, [], 0⟩ ∧ CollectorInv ⟨L, [], 0⟩ := by
  refine ⟨by simp [withLimit]; omega, ?_, by simp, hL⟩
  intro i hi hlen
  simp [nth] at hlen

theorem collect_ok (c : MultiIndexCollector) (h : CollectorInv c)
    (index doc : Nat) (score : Int) :
    ∃ c', collect c index doc score = .ok c' ∧ CollectorInv c' ∧
      c'.limit = c.limit := by
  obtain ⟨hheap, hlen, hlim⟩ := h
  unfold collect
  by_cases hcap : atCapacity c = true
  · have hne : c.heap ≠ [] := by
      intro hnil
      unfold atCapacity at hcap
      rw [hnil] at hcap
      simp at hcap
      omega
    obtain ⟨d, rest, hd⟩ : ∃ d rest, c.heap = d :: rest := by
      cases hc : c.heap with
      | nil => exact absurd hc hne
      | cons d rest => exact ⟨d, rest, rfl⟩
    rw [hcap]
    simp only [if_true, hd, List.head?]
    by_cases hlt : d.score < score
    · simp only [if_pos hlt]
      refine ⟨_, rfl, ⟨?_, ?_, hlim⟩, rfl⟩
      · rw [← hd]
        exact siftDown_set_zero_heapInv c.heap _ hne hheap
      · simp only [siftDown_length, List.length_set, ← hd]
        exact hlen
    · simp only [if_neg hlt]
      exact ⟨c, rfl, ⟨hheap, hlen, hlim⟩, rfl⟩
  · rw [if_neg hcap]
    refine ⟨_, rfl, ⟨heapPush_heapInv c.heap _ hheap, ?_, hlim⟩, rfl⟩
    unfold atCapacity at hcap
    simp only [heapPush_length]
    simp at hcap
    omega

theorem collectHit_ok (c : MultiIndexCollector) (h : CollectorInv c) (hit : Hit) :
    ∃ c', collectHit c hit = .ok c' ∧ CollectorInv c' ∧ c'.limit = c.limit := by
  unfold collectHit
  have hinv : CollectorInv (setSegmentId c hit.segment) := h
  exact collect_ok _ hinv _ _ _

theorem runHits_ok (hits : List Hit) (c : MultiIndexCollector) (h : CollectorInv c) :
    ∃ c', runHits c hits = .ok c' ∧ CollectorInv c' ∧ c'.limit = c.limit := by
  induction hits generalizing c with
  | nil => exact ⟨c, rfl, h, rfl⟩
  | cons hit rest ih =>
      obtain ⟨c', hc', hinv', hlim'⟩ := collectHit_ok c h hit
      obtain ⟨c'', hc'', hinv'', hlim''⟩ := ih c' hinv'
      exact ⟨c'', by rw [runHits, hc']; exact hc'', hinv'', by rw [hlim'', hlim']⟩

theorem collectorAfter_ok (L : Nat) (hits : List Hit) (hL : 1 ≤ L) :
    ∃ c, collectorAfter L hits = .ok c ∧ CollectorInv c ∧ c.limit = L := by
  obtain ⟨hwl, hinv⟩ := withLimit_collectorInv L hL
  obtain ⟨c, hc, hcinv, hclim⟩ := runHits_ok hits ⟨L, [], 0⟩ hinv
  exact ⟨c, by rw [collectorAfter, hwl]; exact hc, hcinv, hclim⟩

/-! Sortedness of the drained sequence. -/

theorem mem_sortedInsert (d x : Doc) (l : List Doc) :
    x ∈ sortedInsert d l ↔ x = d ∨ x ∈ l := by
  induction l with
  | nil => simp [sortedInsert]
  | cons y ys ih =>
      unfold sortedInsert
      split
      · simp
      · simp only [List.mem_cons, ih]
        tauto

theorem sortedInsert_scoreDescending (d : Doc) (l : List Doc)
    (h : scoreDescending l) : scoreDescending (sortedInsert d l) := by
  induction l with
  | nil =>
      simp [sortedInsert, scoreDescending]
  | cons y ys ih =>
      unfold sortedInsert
      rcases List.pairwise_cons.mp h with ⟨hy, hys⟩
      split
      · next hgt =>
          have hdy : y.score < d.score := (docCmp_gt_iff _ _).mp hgt
          refine List.pairwise_cons.mpr ⟨?_, h⟩
          intro b hb
          rcases List.mem_cons.mp hb with rfl | hmem
          · exact le_of_lt hdy
          · exact le_trans (hy b hmem) (le_of_lt hdy)
      · next hngt =>
          have hdy : d.score ≤ y.score := (not_docCmp_gt_iff _ _).mp hngt
          refine List.pairwise_cons.mpr ⟨?_, ih hys⟩
          intro b hb
          rcases (mem_sortedInsert d b ys).mp hb with rfl | hmem
          · exact hdy
          · exact hy b hmem

theorem sortDocs_scoreDescending (l : List Doc) : scoreDescending (sortDocs l) := by
  have H : ∀ acc, scoreDescending acc →
      scoreDescending (l.foldl (fun acc x => sortedInsert x acc) acc) := by
    induction l with
    | nil => intro acc hacc; exact hacc
    | cons x xs ih =>
        intro acc hacc
        exact ih _ (sortedInsert_scoreDescending x acc hacc)
  exact H [] (by simp [scoreDescending])

theorem topDocs_scoreDescending (c : MultiIndexCollector) :
    scoreDescending (topDocs c) := sortDocs_scoreDescending c.heap

/-- A hit offered to a full collector whose score does not beat the
weakest retained entry is discarded: the heap is unchanged and the hit's
score is at most every retained score. -/
theorem collect_discard (c : MultiIndexCollector) (h : CollectorInv c)
    (hit : Hit) (limitDoc : Doc)
    (hcap : atCapacity c = true) (hhead : c.heap.head? = Option.some limitDoc)
    (hle : ¬limitDoc.score < hit.score) :
    collectHit c hit = .ok (setSegmentId c hit.segment) ∧
      ∀ x ∈ c.heap, hit.score ≤ x.score := by
  constructor
  · unfold collectHit collect
    have hcap' : atCapacity (setSegmentId c hit.segment) = true := hcap
    rw [hcap']
    simp only [if_true]
    have : (setSegmentId c hit.segment).heap = c.heap := rfl
    rw [this, hhead]
    simp [if_neg hle]
  · intro x hx
    have hroot : nth c.heap 0 = limitDoc := head?_nth c.heap limitDoc hhead
    have hmin := HeapInv.rootMinMem c.heap h.1 x hx
    rw [hroot] at hmin
    omega

end Search

namespace SerOutcome

theorem okMap_isErr {α β : Type} (f : α → β) (o : SerOutcome α) :
    (o.okMap f).isErr = o.isErr := by
  cases o <;> rfl

theorem isErr_ok {α : Type} (a : α) : (SerOutcome.ok a).isErr = false := rfl

theorem isErr_err {α : Type} (m : String) :
    (SerOutcome.err m : SerOutcome α).isErr = true := rfl

theorem isErr_fatal {α : Type} (m : String) :
    (SerOutcome.fatal m : SerOutcome α).isErr = false := rfl

theorem okMap_isOk {α β : Type} (f : α → β) (o : SerOutcome α) :
    (o.okMap f).isOk = o.isOk := by
  cases o <;> rfl

theorem isOk_ok {α : Type} (a : α) : (SerOutcome.ok a).isOk = true := rfl

theorem isOk_err {α : Type} (m : String) :
    (SerOutcome.err m : SerOutcome α).isOk = false := rfl

theorem isOk_fatal {α : Type} (m : String) :
    (SerOutcome.fatal m : SerOutcome α).isOk = false := rfl

theorem not_ok_not_err_isFatal {α : Type} (o : SerOutcome α)
    (hok : o.isOk = false) (herr : o.isErr = false) : o.isFatal = true := by
  cases o with
  | ok a => cases hok
  | err m => cases herr
  | fatal m => rfl

end SerOutcome

namespace Schema

theorem entryFor_eq (k : String) (v : Value) : entryFor k v = entryForTy k v.ty := by
  cases v <;> rfl

theorem entryForTy_name (k t : String) (e : FieldEntry)
    (h : entryForTy k t = Option.some e) : e.name = k := by
  unfold entryForTy at h
  split at h
  · cases h; rfl
  · split at h
    · cases h; rfl
    · split at h
      · cases h; rfl
      · split at h
        · cases h; rfl
        · cases h

theorem lookupSeen_append_some (seen : List (String × String)) (k t : String)
    (h : lookupSeen seen k = Option.some t) (x : String × String) :
    lookupSeen (seen ++ [x]) k = Option.some t := by
  induction seen with
  | nil => simp [lookupSeen] at h
  | cons e rest ih =>
      simp only [List.cons_append, lookupSeen] at h ⊢
      by_cases he : e.1 = k
      · rwa [if_pos he] at h ⊢
      · rw [if_neg he] at h ⊢
        exact ih h

theorem lookupSeen_append_none (seen : List (String × String)) (k : String)
    (h : lookupSeen seen k = Option.none) (x : String × String) :
    lookupSeen (seen ++ [x]) k =
      if x.1 = k then Option.some x.2 else Option.none := by
  induction seen with
  | nil => simp [lookupSeen]
  | cons e rest ih =>
      simp only [List.cons_append, lookupSeen] at h ⊢
      by_cases he : e.1 = k
      · rw [if_pos he] at h; cases h
      · rw [if_neg he] at h ⊢
        exact ih h

theorem lookupEntry_append_some (schema : List FieldEntry) (k : String) (e : FieldEntry)
    (h : lookupEntry schema k = Option.some e) (es : List FieldEntry) :
    lookupEntry (schema ++ es) k = Option.some e := by
  induction schema with
  | nil => simp [lookupEntry] at h
  | cons e' rest ih =>
      simp only [List.cons_append, lookupEntry] at h ⊢
      by_cases he : e'.name = k
      · rwa [if_pos he] at h ⊢
      · rw [if_neg he] at h ⊢
        exact ih h

theorem lookupEntry_append_none (schema : List FieldEntry) (k : String)
    (h : lookupEntry schema k = Option.none) (es : List FieldEntry) :
    lookupEntry (schema ++ es) k = lookupEntry es k := by
  induction schema with
  | nil => rfl
  | cons e' rest ih =>
      simp only [List.cons_append, lookupEntry] at h ⊢
      by_cases he : e'.name = k
      · rw [if_pos he] at h; cases h
      · rw [if_neg he] at h ⊢
        exact ih h

theorem lookupEntry_toList (k : String) (o : Option FieldEntry)
    (hname : ∀ e, o = Option.some e → e.name = k) :
    lookupEntry o.toList k = o := by
  cases o with
  | none => rfl
  | some e => simp [lookupEntry, hname e rfl]

theorem lookupEntry_toList_ne (k k' t' : String) (hk : k ≠ k') :
    lookupEntry (entryForTy k' t').toList k = Option.none := by
  cases ho : entryForTy k' t' with
  | none => rfl
  | some e =>
      have hne : e.name = k' := entryForTy_name k' t' e ho
      have : ¬e.name = k := by rw [hne]; exact fun h => hk h.symm
      simp [lookupEntry, this]

theorem schemaAgrees_extend (seen : List (String × String)) (schema : List FieldEntry)
    (hA : SchemaAgrees seen schema) (k' t' : String)
    (hnone : lookupSeen seen k' = Option.none) :
    SchemaAgrees (seen ++ [(k', t')]) (schema ++ (entryForTy k' t').toList) := by
  intro k
  by_cases hk : k = k'
  · subst hk
    have hsch : lookupEntry schema k = Option.none := by
      rw [hA k, hnone]; rfl
    rw [lookupEntry_append_none _ _ hsch, lookupSeen_append_none _ _ hnone]
    simp only [if_pos rfl, Option.some_bind]
    exact lookupEntry_toList k _ (fun e he => entryForTy_name k t' e he)
  · cases hs : lookupSeen seen k with
    | none =>
        have hsch : lookupEntry schema k = Option.none := by
          rw [hA k, hs]; rfl
        rw [lookupEntry_append_none _ _ hsch, lookupSeen_append_none _ _ hs]
        have hx : ¬((k', t').1 = k) := fun h => hk h.symm
        rw [if_neg hx]
        exact lookupEntry_toList_ne k k' t' hk
    | some t =>
        rw [lookupSeen_append_some _ _ _ hs]
        have hsch : lookupEntry schema k = (Option.some t).bind (entryForTy k) := by
          rw [hA k, hs]
        cases hft : entryForTy k t with
        | none =>
            have : lookupEntry schema k = Option.none := by
              rw [hsch]; simp [hft]
            rw [lookupEntry_append_none _ _ this]
            rw [lookupEntry_toList_ne k k' t' hk]
            simp [hft]
        | some e =>
            have : lookupEntry schema k = Option.some e := by
              rw [hsch]; simp [hft]
            rw [lookupEntry_append_some _ _ _ this]
            simp [hft]

theorem buildSchemaGo_main (rest : List (String × Value)) :
    ∀ seen schema out, SchemaAgrees seen schema →
      buildSchemaGo seen schema rest = .ok out →
      (∀ k, lookupSeen seen k ≠ Option.none → lookupEntry out k = lookupEntry schema k) ∧
      (∀ k v, (k, v) ∈ rest → lookupEntry out k = entryForTy k v.ty) := by
  induction rest with
  | nil =>
      intro seen schema out hA hgo
      unfold buildSchemaGo at hgo
      cases hgo
      exact ⟨fun k _ => rfl, fun k v hv => absurd hv (List.not_mem_nil _)⟩
  | cons kv rest' ih =>
      intro seen schema out hA hgo
      obtain ⟨k', v'⟩ := kv
      unfold buildSchemaGo at hgo
      cases hseen : lookupSeen seen k' with
      | some ty =>
          rw [hseen] at hgo
          simp only at hgo
          by_cases hty : ty = v'.ty
          · rw [if_pos hty] at hgo
            obtain ⟨hpres, hmem⟩ := ih seen schema out hA hgo
            refine ⟨hpres, ?_⟩
            intro k v hv
            rcases List.mem_cons.mp hv with heq | hv'
            · cases heq
              have h1 : lookupEntry out k' = lookupEntry schema k' :=
                hpres k' (by rw [hseen]; simp)
              rw [h1, hA k', hseen, hty]
              rfl
            · exact hmem k v hv'
          · rw [if_neg hty] at hgo
            cases hgo
      | none =>
          rw [hseen] at hgo
          simp only at hgo
          have hsch : (match entryFor k' v' with
              | Option.some e => schema ++ [e]
              | Option.none => schema) = schema ++ (entryForTy k' v'.ty).toList := by
            rw [entryFor_eq]
            cases entryForTy k' v'.ty <;> simp
          rw [hsch] at hgo
          have hA' := schemaAgrees_extend seen schema hA k' v'.ty hseen
          obtain ⟨hpres, hmem⟩ := ih _ _ out hA' hgo
          have hnew : lookupSeen (seen ++ [(k', v'.ty)]) k' = Option.some v'.ty := by
            rw [lookupSeen_append_none _ _ hseen]
            simp
          constructor
          · intro k hk
            have hkk' : k ≠ k' := by
              intro h; rw [h, hseen] at hk; exact hk rfl
            have hk' : lookupSeen (seen ++ [(k', v'.ty)]) k ≠ Option.none := by
              cases hs : lookupSeen seen k with
              | none => rw [hs] at hk; exact absurd rfl hk
              | some t => rw [lookupSeen_append_some _ _ _ hs]; simp
            have h1 := hpres k hk'
            cases hs : lookupEntry schema k with
            | some e => rw [h1, lookupEntry_append_some _ _ _ hs]
            | none =>
                rw [h1, lookupEntry_append_none _ _ hs,
                  lookupEntry_toList_ne k k' v'.ty hkk']
          · intro k v hv
            rcases List.mem_cons.mp hv with heq | hv'
            · cases heq
              have h1 := hpres k' (by rw [hnew]; simp)
              rw [h1, hA' k', hnew]
              rfl
            · exact hmem k v hv'

theorem buildSchema_lookup (fields : List (String × Value)) (out : List FieldEntry)
    (h : buildSchema fields = .ok out) (k : String) (v : Value)
    (hmem : (k, v) ∈ fields) : lookupEntry out k = entryForTy k v.ty :=
  (buildSchemaGo_main fields [] [] out (fun _ => rfl) h).2 k v hmem

theorem buildDocument_cons_ne (schema : List FieldEntry) (k' : String) (v' : Value)
    (rest : List (String × Value)) (hv' : v' ≠ Value.none) :
    buildDocument schema ((k', v') :: rest) =
      match lookupEntry schema k' with
      | Option.none => .fatal "missing field"
      | Option.some _ =>
          (buildDocument schema rest).okMap (fun doc => (k', encodeVal v') :: doc) := by
  cases v' <;> first | exact absurd rfl hv' | rfl

theorem anonymousNext_not_err (p : FieldPath) : (p.anonymousNext).isErr = false := by
  unfold FieldPath.anonymousNext
  cases p.components.getLast? with
  | none => rfl
  | some comp =>
      dsimp only
      by_cases hcf : comp.allowChildFields
      · rw [if_pos hcf]; rfl
      · rw [if_neg hcf]; rfl

theorem moveNextFieldDefault_not_err (c : FieldCollector) (v : Value) :
    (c.moveNextFieldDefault v).isErr = false := by
  unfold FieldCollector.moveNextFieldDefault
  cases c.currentField with
  | some f => rfl
  | none =>
      cases h : c.path.anonymousNext with
      | ok pr => obtain ⟨f, path'⟩ := pr; rfl
      | err m =>
          have hne := anonymousNext_not_err c.path
          rw [h] at hne
          cases hne
      | fatal m => rfl

theorem moveNextField_not_err (c : FieldCollector) (v : Value) :
    (c.moveNextField v).isErr = false := by
  unfold FieldCollector.moveNextField
  cases c.path.components.getLast? with
  | none => exact moveNextFieldDefault_not_err c v
  | some comp =>
      dsimp only
      by_cases hcf : comp.allowChildFields
      · rw [if_pos hcf]; exact moveNextFieldDefault_not_err c v
      · rw [if_neg hcf]
        cases c.currentField <;> rfl

theorem setCurrentField_ne_err (c : FieldCollector) (k m : String) :
    ¬(c.setCurrentField k = SerOutcome.err m) := by
  unfold FieldCollector.setCurrentField
  cases c.currentField <;> simp

/-- The flattening serializer can only succeed or panic: no arm of the
`FieldCollector` serializer ever returns `Result::Err` to the caller. -/
theorem serialize_isErr_false :
    (∀ c v, (serializeValue c v).isErr = false) ∧
    (∀ c fs, (serializeStructFields c fs).isErr = false) ∧
    (∀ c entries, (serializeMapEntries c entries).isErr = false) ∧
    (∀ c elems, (serializeSeqElems c elems).isErr = false) := by
  apply serializeValue.mutual_induct
    (fun c v => (serializeValue c v).isErr = false)
    (fun c fs => (serializeStructFields c fs).isErr = false)
    (fun c entries => (serializeMapEntries c entries).isErr = false)
    (fun c elems => (serializeSeqElems c elems).isErr = false)
  all_goals intros
  all_goals simp_all only [serializeValue, serializeSeqElems, serializeMapEntries,
    serializeStructFields, SerOutcome.okMap_isErr, SerOutcome.isErr_ok,
    SerOutcome.isErr_err, SerOutcome.isErr_fatal,
    moveNextField_not_err, setCurrentField_ne_err]

theorem flattenFields_isErr_false (v : SValue) : (flattenFields v).isErr = false := by
  rw [flattenFields, SerOutcome.okMap_isErr]
  exact serialize_isErr_false.1 _ v

/-- Serialization never succeeds on a value containing an unsupported
shape: the traversal visits every subvalue in order, and an unsupported
node (or an earlier panic) prevents an `ok` outcome. -/
theorem serialize_unsupported_not_ok :
    (∀ c v, ((serializeValue c v).isOk && containsUnsupported v) = false) ∧
    (∀ c fs, ((serializeStructFields c fs).isOk && fieldsContainsUnsupported fs) = false) ∧
    (∀ c entries,
      ((serializeMapEntries c entries).isOk && mapContainsUnsupported entries) = false) ∧
    (∀ c elems,
      ((serializeSeqElems c elems).isOk && listContainsUnsupported elems) = false) := by
  apply serializeValue.mutual_induct
    (fun c v => ((serializeValue c v).isOk && containsUnsupported v) = false)
    (fun c fs => ((serializeStructFields c fs).isOk && fieldsContainsUnsupported fs) = false)
    (fun c entries =>
      ((serializeMapEntries c entries).isOk && mapContainsUnsupported entries) = false)
    (fun c elems =>
      ((serializeSeqElems c elems).isOk && listContainsUnsupported elems) = false)
  all_goals intros
  all_goals simp_all [serializeValue, serializeSeqElems, serializeMapEntries,
    serializeStructFields, containsUnsupported, listContainsUnsupported,
    mapContainsUnsupported, fieldsContainsUnsupported, SerOutcome.okMap_isOk,
    SerOutcome.isOk_ok, SerOutcome.isOk_err, SerOutcome.isOk_fatal,
    SerOutcome.isErr_ok]

/-- Flattening a record that contains an unsupported shape anywhere
cannot succeed, and since the serializer never returns an error, it
panics. -/
theorem flattenFields_unsupported_fatal (v : SValue)
    (h : containsUnsupported v = true) : (flattenFields v).isFatal = true := by
  apply SerOutcome.not_ok_not_err_isFatal
  · rw [flattenFields, SerOutcome.okMap_isOk]
    have hmain := serialize_unsupported_not_ok.1 FieldCollector.new v
    rw [h] at hmain
    simpa using hmain
  · exact flattenFields_isErr_false v

theorem indexable_ok (d : Doc) (out : IndexableDoc) (h : d.indexable = .ok out) :
    buildSchema d.fields = .ok out.schema ∧
      buildDocument out.schema d.fields = .ok out.doc ∧ out.index = d.index := by
  unfold Doc.indexable at h
  cases hs : buildSchema d.fields with
  | ok schema =>
      rw [hs] at h
      dsimp only at h
      cases hd : buildDocument schema d.fields with
      | ok doc =>
          rw [hd] at h
          simp only [SerOutcome.okMap] at h
          cases h
          exact ⟨rfl, hd, rfl⟩
      | err m => rw [hd] at h; cases h
      | fatal m => rw [hd] at h; cases h
  | err m => rw [hs] at h; cases h
  | fatal m => rw [hs] at h; cases h

theorem buildDocument_mem (schema : List FieldEntry) :
    ∀ fields out, buildDocument schema fields = .ok out →
      ∀ k v, (k, v) ∈ fields → v ≠ .none → (k, encodeVal v) ∈ out := by
  intro fields
  induction fields with
  | nil =>
      intro out _ k v hv
      exact absurd hv (List.not_mem_nil _)
  | cons kv rest ih =>
      intro out h k v hmem hvne
      obtain ⟨k', v'⟩ := kv
      by_cases hv' : v' = Value.none
      · subst hv'
        have hstep : buildDocument schema ((k', Value.none) :: rest) =
            buildDocument schema rest := rfl
        rw [hstep] at h
        rcases List.mem_cons.mp hmem with heq | hmem'
        · cases heq; exact absurd rfl hvne
        · exact ih out h k v hmem' hvne
      · rw [buildDocument_cons_ne schema k' v' rest hv'] at h
        cases hl : lookupEntry schema k' with
        | none => rw [hl] at h; cases h
        | some e =>
            rw [hl] at h
            cases hd : buildDocument schema rest with
            | ok doc =>
                rw [hd] at h
                cases h
                rcases List.mem_cons.mp hmem with heq | hmem'
                · cases heq
                  exact List.mem_cons_self _ _
                · exact List.mem_cons_of_mem _ (ih doc hd k v hmem' hvne)
            | err m => rw [hd] at h; cases h
            | fatal m => rw [hd] at h; cases h

end Schema

/-! ## Claim theorems -/

/-- Claim C1, counterexample to the claim as stated: with limit 2, two
retained hits of equal score 5 drain to a sequence that is not sorted
strictly descending by score. -/
theorem C1_counterexample :
    (Search.collectorAfter 2 [⟨1, 0, 0, 5⟩, ⟨1, 0, 1, 5⟩]).okMap Search.topDocs =
      .ok [⟨5, 1, (0, 0)⟩, ⟨5, 1, (0, 1)⟩] ∧
    ¬ List.Pairwise (fun a b : Search.Doc => b.score < a.score)
      [⟨5, 1, (0, 0)⟩, ⟨5, 1, (0, 1)⟩] := by
  constructor
  · simp [Search.collectorAfter, Search.withLimit, Search.runHits, Search.collectHit,
      Search.collect, Search.atCapacity, Search.setSegmentId, Search.heapPush, Search.siftUp,
      Search.siftDown, Search.nth, Search.topDocs, Search.sortDocs, Search.sortedInsert,
      Search.docCmp, Search.scoreCmpOpt, Search.addressCmp, SerOutcome.okMap,
      Search.pickChild, compare_gt_iff_gt, compare_lt_iff_lt, List.foldl]
  · decide

/-- Claim C1 (amended): for every limit `L ≥ 1` and hit sequence, the
collector retains at most `L` entries at every prefix; the drained
sequence is sorted descending (weakly) by score; and any hit offered to
a full collector whose score does not strictly beat the heap head (the
weakest retained entry) is discarded — the heap is unchanged and the
hit's score is at most every retained entry's score. -/
theorem C1_amended (L : Nat) (hits : List Search.Hit) (hL : 1 ≤ L) :
    (∀ k c, Search.collectorAfter L (hits.take k) = .ok c → c.heap.length ≤ L) ∧
    (∀ c, Search.collectorAfter L hits = .ok c →
      Search.scoreDescending (Search.topDocs c)) ∧
    (∀ k c hit limitDoc, Search.collectorAfter L (hits.take k) = .ok c →
      hits.get? k = Option.some hit → Search.atCapacity c = true →
      c.heap.head? = Option.some limitDoc → ¬limitDoc.score < hit.score →
      Search.collectHit c hit = .ok (Search.setSegmentId c hit.segment) ∧
        ∀ x ∈ c.heap, hit.score ≤ x.score) := by
  refine ⟨?_, ?_, ?_⟩
  · intro k c hc
    obtain ⟨c', hc', hinv, hlim⟩ := Search.collectorAfter_ok L (hits.take k) hL
    rw [hc] at hc'
    cases hc'
    rw [← hlim]
    exact hinv.2.1
  · intro c _
    exact Search.topDocs_scoreDescending c
  · intro k c hit limitDoc hc hk hcap hhead hle
    obtain ⟨c', hc', hinv, hlim⟩ := Search.collectorAfter_ok L (hits.take k) hL
    rw [hc] at hc'
    cases hc'
    exact Search.collect_discard c hinv hit limitDoc hcap hhead hle

/-- Claim C1 witness: the amended theorem applied at limit 1 and the
single hit (fingerprint 1, segment 0, doc 0, score 5). -/
theorem C1_amended_witness :
    (⟨1, [⟨5, 1, (0, 0)⟩], 0⟩ : Search.MultiIndexCollector).heap.length ≤ 1 :=
  (C1_amended 1 [⟨1, 0, 0, 5⟩] (by decide)).1 1 ⟨1, [⟨5, 1, (0, 0)⟩], 0⟩ (by
    simp [Search.collectorAfter, Search.withLimit, Search.runHits, Search.collectHit,
      Search.collect, Search.atCapacity, Search.setSegmentId, Search.heapPush, Search.siftUp,
      Search.siftDown, Search.nth, Search.docCmp, Search.scoreCmpOpt, Search.addressCmp,
      SerOutcome.okMap, Search.pickChild, compare_gt_iff_gt, compare_lt_iff_lt])

/-- Claim C2: evaluation at the failing input.  With limit 1, offering a
hit from fingerprint 1 and then a higher-scored hit from fingerprint 2,
the eviction overwrites only score and address: the retained entry keeps
fingerprint 1 while carrying fingerprint 2's address (0, 5), and
resolution would fetch that address through fingerprint 1's engine
handle. -/
theorem C2_code_bug_eval :
    Search.collectorAfter 1 [⟨1, 0, 0, 1⟩, ⟨2, 0, 5, 2⟩] =
      .ok ⟨1, [⟨2, 1, (0, 5)⟩], 0⟩ ∧
    Search.resolutionPairs ⟨1, [⟨2, 1, (0, 5)⟩], 0⟩ = [(1, (0, 5))] ∧
    (1 : Nat) ≠ 2 := by
  refine ⟨?_, ?_, by decide⟩
  · simp [Search.collectorAfter, Search.withLimit, Search.runHits, Search.collectHit,
      Search.collect, Search.atCapacity, Search.setSegmentId, Search.heapPush, Search.siftUp,
      Search.siftDown, Search.nth, Search.docCmp, Search.scoreCmpOpt, Search.addressCmp,
      SerOutcome.okMap, Search.pickChild, compare_gt_iff_gt, compare_lt_iff_lt]
  · simp [Search.resolutionPairs, Search.topDocs, Search.sortDocs, Search.sortedInsert,
      List.foldl]

/-- Claim C3, counterexample to the claim as stated: two equal-score hits
from different fingerprints drain in heap order, not ascending by
(fingerprint, segment id, doc id) — and reversing the insertion order
reverses the drained order, so the result is not insertion-order
independent. -/
theorem C3_counterexample :
    (Search.collectorAfter 2 [⟨2, 0, 0, 1⟩, ⟨1, 0, 1, 1⟩]).okMap Search.topDocs =
      .ok [⟨1, 2, (0, 0)⟩, ⟨1, 1, (0, 1)⟩] ∧
    (Search.collectorAfter 2 [⟨1, 0, 1, 1⟩, ⟨2, 0, 0, 1⟩]).okMap Search.topDocs =
      .ok [⟨1, 1, (0, 1)⟩, ⟨1, 2, (0, 0)⟩] ∧
    ¬ List.Pairwise Search.tieBreakOrd [⟨1, 2, (0, 0)⟩, ⟨1, 1, (0, 1)⟩] := by
  refine ⟨?_, ?_, ?_⟩
  · simp [Search.collectorAfter, Search.withLimit, Search.runHits, Search.collectHit,
      Search.collect, Search.atCapacity, Search.setSegmentId, Search.heapPush, Search.siftUp,
      Search.siftDown, Search.nth, Search.topDocs, Search.sortDocs, Search.sortedInsert,
      Search.docCmp, Search.scoreCmpOpt, Search.addressCmp, SerOutcome.okMap,
      Search.pickChild, compare_gt_iff_gt, compare_lt_iff_lt, List.foldl]
  · simp [Search.collectorAfter, Search.withLimit, Search.runHits, Search.collectHit,
      Search.collect, Search.atCapacity, Search.setSegmentId, Search.heapPush, Search.siftUp,
      Search.siftDown, Search.nth, Search.topDocs, Search.sortDocs, Search.sortedInsert,
      Search.docCmp, Search.scoreCmpOpt, Search.addressCmp, SerOutcome.okMap,
      Search.pickChild, compare_gt_iff_gt, compare_lt_iff_lt, List.foldl]
  · decide

/-- Claim C3 (amended): the `Doc` ordering is exactly the reversed score
comparison — equal-score entries compare as equal, with the (segment id,
doc id) address fallback reachable only for incomparable scores and the
fingerprint never consulted — so the drained sequence is sorted
descending by score, while the relative order of equal-score entries
follows the heap's internal layout and hence the insertion order. -/
theorem C3_amended :
    (∀ a b : Search.Doc, Search.docCmp a b = compare b.score a.score) ∧
    (∀ a b : Search.Doc, a.score = b.score → Search.docCmp a b = Ordering.eq) ∧
    (∀ L hits c, Search.collectorAfter L hits = .ok c →
      Search.scoreDescending (Search.topDocs c)) := by
  refine ⟨fun a b => Search.docCmp_def a b, ?_, ?_⟩
  · intro a b h
    rw [Search.docCmp_def, h]
    exact compare_eq_iff_eq.mpr rfl
  · intro L hits c _
    exact Search.topDocs_scoreDescending c

/-- Claim C3 witness: the amended theorem applied to two equal-score docs
with different fingerprints and addresses, and to a concrete run. -/
theorem C3_amended_witness :
    Search.docCmp ⟨5, 2, (0, 0)⟩ ⟨5, 1, (0, 1)⟩ = Ordering.eq :=
  C3_amended.2.1 ⟨5, 2, (0, 0)⟩ ⟨5, 1, (0, 1)⟩ rfl

/-- Claim C4: the fingerprint computed by `Doc::build` is the hash of the
ordered `(path, type-tag)` sequence of the flattened fields; equal
sequences give equal fingerprints regardless of payloads, and flattened
lists of different lengths (duplicate paths counted individually) always
give different hash inputs. -/
theorem C4_fingerprint :
    (∀ (h : List (String × String) → Nat) v d, Schema.Doc.build h v = .ok d →
      d.index = h (Schema.fingerprintInput d.fields)) ∧
    (∀ (h : List (String × String) → Nat) f1 f2,
      Schema.fingerprintInput f1 = Schema.fingerprintInput f2 →
      h (Schema.fingerprintInput f1) = h (Schema.fingerprintInput f2)) ∧
    (∀ f1 f2 : List (String × Schema.Value), f1.length ≠ f2.length →
      Schema.fingerprintInput f1 ≠ Schema.fingerprintInput f2) := by
  refine ⟨?_, ?_, ?_⟩
  · intro h v d hb
    unfold Schema.Doc.build at hb
    cases hf : Schema.flattenFields v with
    | ok fields => rw [hf] at hb; cases hb; rfl
    | err m => rw [hf] at hb; cases hb
    | fatal m => rw [hf] at hb; cases hb
  · intro h f1 f2 he
    rw [he]
  · intro f1 f2 hne he
    apply hne
    have h1 : (Schema.fingerprintInput f1).length = f1.length := List.length_map _ _
    have h2 : (Schema.fingerprintInput f2).length = f2.length := List.length_map _ _
    rw [← h1, ← h2, he]

/-- Claim C4 witness: `Doc::build` with the length hasher on the example
record yields fingerprint 7, the length of its `(path, type-tag)`
sequence. -/
theorem C4_fingerprint_witness :
    (⟨7, Schema.exampleExpected⟩ : Schema.Doc).index =
      List.length (Schema.fingerprintInput Schema.exampleExpected) :=
  C4_fingerprint.1 List.length Schema.exampleRecord ⟨7, Schema.exampleExpected⟩
    (by decide)

/-- Claim C5: flattening the example record
`{a: 1, b: "Hello!", c: {a: false, b: ('a','b')}, d: [13, 42]}` produces
exactly the seven expected fields, with synthesized `_0`/`_1` segments
for the tuple and the repeated unextended path `d` for the sequence. -/
theorem C5_path_synthesis :
    Schema.flattenFields Schema.exampleRecord = .ok Schema.exampleExpected := by
  decide

/-- Claim C6, counterexample to the claim as stated: a data-carrying
variant and a non-scalar map key make flattening panic
(`unimplemented!()` / `expect("invalid key")`), not return an error. -/
theorem C6_counterexample :
    Schema.flattenFields (.sNewtypeVariant "E" 0 "V" (.sI64 1)) =
      .fatal "not implemented" ∧
    (Schema.flattenFields (.sNewtypeVariant "E" 0 "V" (.sI64 1))).isErr = false ∧
    Schema.flattenFields (.sMap [(.sSeq [], .sI64 1)]) = .fatal "invalid key" ∧
    (Schema.flattenFields (.sMap [(.sSeq [], .sI64 1)])).isErr = false := by
  refine ⟨by decide, by decide, by decide, by decide⟩

/-- Claim C6 (amended): for every input record containing an unsupported
shape anywhere — a data-carrying enum variant (newtype, tuple or struct
variant) or a map entry whose key is not scalar-renderable — flattening
panics (`unimplemented!()` / `expect("invalid key")`), aborting the
`index()` call's process, rather than returning a `FlattenError`; indeed
the flattening serializer never returns an error at all.  The root-level
unsupported shapes produce the exact panic messages shown. -/
theorem C6_amended :
    (∀ v, Schema.containsUnsupported v = true →
      (Schema.flattenFields v).isFatal = true) ∧
    (∀ n i vn v, Schema.flattenFields (.sNewtypeVariant n i vn v) =
      .fatal "not implemented") ∧
    (∀ n i vn elems, Schema.flattenFields (.sTupleVariant n i vn elems) =
      .fatal "not implemented") ∧
    (∀ n i vn fs, Schema.flattenFields (.sStructVariant n i vn fs) =
      .fatal "not implemented") ∧
    (∀ k v rest m, Schema.serializeKey k = .err m →
      Schema.flattenFields (.sMap ((k, v) :: rest)) = .fatal "invalid key") ∧
    (∀ v, (Schema.flattenFields v).isErr = false) := by
  refine ⟨Schema.flattenFields_unsupported_fatal,
    fun n i vn v => rfl, fun n i vn elems => rfl, fun n i vn fs => rfl, ?_,
    Schema.flattenFields_isErr_false⟩
  intro k v rest m h
  unfold Schema.flattenFields
  rw [Schema.serializeValue]
  rw [Schema.serializeMapEntries, h]
  rfl

/-- Claim C6 witness: the amended theorem applied to a struct whose
`level` field holds a data-carrying variant (the shape `Indexer::index`
actually feeds to flattening), and to a map whose key is an
(unsupported) empty sequence. -/
theorem C6_amended_witness :
    (Schema.flattenFields
      (.sStruct "IndexableRecord"
        [("level", .sNewtypeVariant "Level" 0 "Info" (.sI64 1)),
         ("msg", .sStr "A structured log")])).isFatal = true ∧
    Schema.flattenFields (.sMap [(.sSeq [], .sI64 1)]) = .fatal "invalid key" :=
  ⟨C6_amended.1
    (.sStruct "IndexableRecord"
      [("level", .sNewtypeVariant "Level" 0 "Info" (.sI64 1)),
       ("msg", .sStr "A structured log")]) (by decide),
   C6_amended.2.2.2.2.1 (.sSeq []) (.sI64 1) [] "unsupported key type" (by decide)⟩

/-- Claim C7: if `Indexer::index` returns an error — flatten failure,
writer acquisition failure, or commit failure — the per-`Indexer` writer
cache is exactly what it was before the call: the cache-miss path caches
the writer only after `add_document` and `commit` succeed. -/
theorem C7_indexer_atomic (hasher : List (String × String) → Nat)
    (writerOk commitOk : Bool) (ix : IndexM.Indexer) (st : StoreM.StoreState)
    (record : Schema.SValue) (m : String) (ix' : IndexM.Indexer)
    (st' : StoreM.StoreState)
    (h : IndexM.Indexer.index hasher writerOk commitOk ix st record =
      (.err m, ix', st')) : ix' = ix := by
  unfold IndexM.Indexer.index at h
  cases hb : Schema.Doc.build hasher record with
  | err m' => rw [hb] at h; simp [Prod.mk.injEq] at h; exact h.2.1.symm
  | fatal m' => rw [hb] at h; simp [Prod.mk.injEq] at h
  | ok doc =>
      rw [hb] at h
      dsimp only at h
      cases hw : IndexM.lookupWriter ix doc.index with
      | some w =>
          rw [hw] at h
          dsimp only at h
          cases hi : doc.indexable with
          | err m2 => rw [hi] at h; simp [Prod.mk.injEq] at h; exact h.2.1.symm
          | fatal m2 => rw [hi] at h; simp [Prod.mk.injEq] at h
          | ok i =>
              rw [hi] at h
              dsimp only at h
              cases commitOk with
              | true => simp [Prod.mk.injEq] at h
              | false => simp [Prod.mk.injEq] at h; exact h.2.1.symm
      | none =>
          rw [hw] at h
          dsimp only at h
          cases hi : doc.indexable with
          | err m2 => rw [hi] at h; simp [Prod.mk.injEq] at h; exact h.2.1.symm
          | fatal m2 => rw [hi] at h; simp [Prod.mk.injEq] at h
          | ok i =>
              rw [hi] at h
              dsimp only at h
              cases hg : StoreM.getWriter writerOk st i with
              | err m2 => rw [hg] at h; simp [Prod.mk.injEq] at h; exact h.2.1.symm
              | fatal m2 => rw [hg] at h; simp [Prod.mk.injEq] at h
              | ok pr =>
                  rw [hg] at h
                  dsimp only at h
                  cases commitOk with
                  | true => simp [Prod.mk.injEq] at h
                  | false => simp [Prod.mk.injEq] at h; exact h.2.1.symm

/-- Claim C7 witness: a commit failure on a cache-miss leaves the writer
cache empty. -/
theorem C7_indexer_atomic_witness :
    (⟨[]⟩ : IndexM.Indexer) = ⟨[]⟩ :=
  C7_indexer_atomic (fun _ => 0) true false ⟨[]⟩ [] (.sI64 1) "commit failed"
    ⟨[]⟩ [(0, ⟨[⟨"_0", .i64Field, Schema.FAST⟩]⟩)] (by decide)

/-- Claim C8: constructing the collector with limit < 1 panics (and hence
so does `Searcher::search`); with limit ≥ 1 construction succeeds, a full
collector's heap is never empty (so the `expect`s inside `collect` are
unreachable), and no sequence of offered hits can make the collector
panic. -/
theorem C8_limit_precondition :
    (∀ L, L < 1 → Search.withLimit L =
      .fatal "Limit must be strictly greater than 0.") ∧
    (∀ perIndex st L, L < 1 → (Search.search perIndex st L).1 =
      .fatal "Limit must be strictly greater than 0.") ∧
    (∀ L, 1 ≤ L → Search.withLimit L = .ok ⟨L, [], 0⟩) ∧
    (∀ c, Search.CollectorInv c → Search.atCapacity c = true → c.heap ≠ []) ∧
    (∀ L hits, 1 ≤ L → ∃ c, Search.collectorAfter L hits = .ok c) := by
  refine ⟨?_, ?_, ?_, ?_, ?_⟩
  · intro L hL
    unfold Search.withLimit
    rw [if_pos hL]
  · intro perIndex st L hL
    unfold Search.search
    unfold Search.withLimit
    rw [if_pos hL]
  · intro L hL
    exact (Search.withLimit_collectorInv L hL).1
  · intro c hinv hcap hnil
    have h1 := hinv.2.1
    have h2 := hinv.2.2
    unfold Search.atCapacity at hcap
    rw [hnil] at hcap
    simp at hcap
    omega
  · intro L hits hL
    obtain ⟨c, hc, _, _⟩ := Search.collectorAfter_ok L hits hL
    exact ⟨c, hc⟩

/-- Claim C8 witness: limit 0 panics; limit 1 constructs, and a run of
two hits on it succeeds. -/
theorem C8_limit_precondition_witness :
    Search.withLimit 0 = .fatal "Limit must be strictly greater than 0." ∧
    Search.withLimit 1 = .ok ⟨1, [], 0⟩ ∧
    ∃ c, Search.collectorAfter 1 [⟨1, 0, 0, 1⟩, ⟨2, 0, 5, 2⟩] = .ok c :=
  ⟨C8_limit_precondition.1 0 (by decide),
   C8_limit_precondition.2.2.1 1 (by decide),
   C8_limit_precondition.2.2.2.2 1 [⟨1, 0, 0, 1⟩, ⟨2, 0, 5, 2⟩] (by decide)⟩

/-- Claim C9: in a successfully materialised document, every numeric
(Signed/Unsigned/Float) field is declared as an i64 column with only the
`FAST` flag — not `STORED` — while Bool and Str fields are `STORED`; and
the document appends Unsigned payloads via `add_u64` and Float payloads
via `add_u64` of the raw bit pattern under the same (i64-declared) field
name. -/
theorem C9_numeric_fields (d : Schema.Doc) (out : Schema.IndexableDoc)
    (h : d.indexable = .ok out) (k : String) (v : Schema.Value)
    (hmem : (k, v) ∈ d.fields) :
    (v.isNumeric →
      Schema.lookupEntry out.schema k =
        Option.some ⟨k, .i64Field, Schema.FAST⟩ ∧
      Schema.FAST.fast = true ∧ Schema.FAST.stored = false) ∧
    ((∃ b, v = .bool b) ∨ (∃ s, v = .str s) →
      ∃ e, Schema.lookupEntry out.schema k = Option.some e ∧
        e.options.stored = true) ∧
    (∀ n, v = .unsigned n → (k, Schema.DocValue.u64Val n) ∈ out.doc) ∧
    (∀ bits, v = .float bits → (k, Schema.DocValue.u64Val bits) ∈ out.doc) := by
  obtain ⟨hs, hd, _⟩ := Schema.indexable_ok d out h
  have hlook := Schema.buildSchema_lookup d.fields out.schema hs k v hmem
  refine ⟨?_, ?_, ?_, ?_⟩
  · intro hnum
    refine ⟨?_, rfl, rfl⟩
    rw [hlook]
    cases v with
    | signed i => simp [Schema.entryForTy, Schema.Value.ty]
    | unsigned n => simp [Schema.entryForTy, Schema.Value.ty]
    | float bits => simp [Schema.entryForTy, Schema.Value.ty]
    | bytes bs => exact absurd hnum (by simp [Schema.Value.isNumeric])
    | str s => exact absurd hnum (by simp [Schema.Value.isNumeric])
    | bool b => exact absurd hnum (by simp [Schema.Value.isNumeric])
    | none => exact absurd hnum (by simp [Schema.Value.isNumeric])
  · rintro (⟨b, rfl⟩ | ⟨s, rfl⟩)
    · refine ⟨⟨k, .textField, Schema.STRING.orOpt Schema.STORED⟩, ?_, rfl⟩
      rw [hlook]
      simp [Schema.entryForTy, Schema.Value.ty]
    · refine ⟨⟨k, .textField, Schema.TEXT.orOpt Schema.STORED⟩, ?_, rfl⟩
      rw [hlook]
      simp [Schema.entryForTy, Schema.Value.ty]
  · rintro n rfl
    exact Schema.buildDocument_mem out.schema d.fields out.doc hd k _ hmem (by simp)
  · rintro bits rfl
    exact Schema.buildDocument_mem out.schema d.fields out.doc hd k _ hmem (by simp)

/-- Claim C9 witness: the theorem applied to a record with an unsigned,
a float and a string field. -/
theorem C9_numeric_fields_witness :
    ("x", Schema.DocValue.u64Val 3) ∈
      [("x", Schema.DocValue.u64Val 3), ("y", Schema.DocValue.u64Val 13),
       ("z", Schema.DocValue.textVal "s")] :=
  (C9_numeric_fields ⟨0, [("x", .unsigned 3), ("y", .float 13), ("z", .str "s")]⟩
      ⟨0,
        [⟨"x", .i64Field, Schema.FAST⟩, ⟨"y", .i64Field, Schema.FAST⟩,
         ⟨"z", .textField, Schema.TEXT.orOpt Schema.STORED⟩],
        [("x", Schema.DocValue.u64Val 3), ("y", Schema.DocValue.u64Val 13),
         ("z", Schema.DocValue.textVal "s")]⟩
      (by decide) "x" (.unsigned 3) (by decide)).2.2.1 3 rfl

/-- Claim C10: `Searcher::search` never modifies the registry — it reads
a point-in-time clone of the fingerprint → index map, and the store state
it leaves behind is exactly the one it was given, whatever the engine
returns and whatever the limit. -/
theorem C10_search_frame
    (perIndex : Nat → SerOutcome (List (Nat × Nat × Int)))
    (st : StoreM.StoreState) (limit : Nat) :
    (Search.search perIndex st limit).2 = st ∧
      StoreM.indexes st = st ∧
      (∀ id, StoreM.lookupIndex (Search.search perIndex st limit).2 id =
        StoreM.lookupIndex st id) :=
  ⟨rfl, rfl, fun _ => rfl⟩
